import Mathlib

/-
Verification of the `hls` package of nashiradeer/vrmix.

The development shallowly embeds the Go sources:
  * `hls/manifest.go`      — the data model (`Segment`, `SegmentGroup`, `Manifest`)
  * `hls/count_manipulator.go` — `RemoveFromStart` / `RemoveFromEnd`
  * the merger / parser / serializer file (`Manifest.Merge`, `ParseHlsManifest`,
    `Manifest.String`)

Go strings are modelled as `List Char`; Go's `uint8`/`uint32` fields are
modelled as `Nat` with arithmetic reduced modulo `2^8` / `2^32` exactly where
the Go code performs unsigned arithmetic or conversions.  Fallible Go calls
(`strconv` parsers, `ParseHlsManifest`) are modelled with `Option`/`Except`.
-/

namespace Hls

/-- Go strings, modelled as lists of characters. -/
abbrev Str := List Char

/-- Models Go `strings.Split(data, "\n")`: split at every newline, always
returning at least one (possibly empty) piece. -/
def splitLines : Str → List Str
  | [] => [[]]
  | c :: rest =>
    if c = '\n' then [] :: splitLines rest
    else
      match splitLines rest with
      | [] => [[c]]
      | l :: ls => (c :: l) :: ls

/-- Joins lines, terminating every line with a newline (the shape produced by
the Go serializer, which writes `"…\n"` for every line). -/
def joinLines (L : List Str) : Str := (L.map (fun l => l ++ ['\n'])).flatten

/-- Models Go `strings.Cut(s, sep)` for a one-character separator: split at the
first occurrence, `none` when the separator does not occur. -/
def cut (sep : Char) : Str → Option (Str × Str)
  | [] => none
  | c :: rest =>
    if c = sep then some ([], rest)
    else
      match cut sep rest with
      | none => none
      | some (a, b) => some (c :: a, b)

/-- The `getValue` helper of the parser: everything after the first `':'`,
or the empty string when there is no `':'` (models `strings.Cut(line, ":")`). -/
def getValue (line : Str) : Str :=
  match cut ':' line with
  | none => []
  | some (_, value) => value

/-- Numeric value of a decimal digit character. -/
def digitVal (c : Char) : Nat := c.toNat - 48

/-- Decimal digit character for `n < 10`. -/
def digitChar (n : Nat) : Char := Char.ofNat (48 + n)

/-- Models Go `strconv.ParseUint(s, 10, _)` before the bit-size check:
a non-empty all-digit string, read as a decimal number. -/
def parseUintDigits (s : Str) : Option Nat :=
  if s ≠ [] ∧ s.all Char.isDigit then
    some (s.foldl (fun a c => a * 10 + digitVal c) 0)
  else none

/-- Decimal digit string of `n`, fuelled so that it evaluates by kernel
reduction (models Go `strconv.FormatUint(n, 10)`). -/
def natToStrAux : Nat → Nat → Str
  | 0, _ => []
  | fuel + 1, n =>
    if n < 10 then [digitChar n]
    else natToStrAux fuel (n / 10) ++ [digitChar (n % 10)]

/-- Decimal digit string of `n` (models Go `strconv.FormatUint(n, 10)`). -/
def natToStr (n : Nat) : Str := natToStrAux (n + 1) n

/-- Leading zeros of the integer digits are dropped, keeping one `0`. -/
def normIntPart (ip : Str) : Str :=
  if ip.dropWhile (fun c => c = '0') = [] then ['0']
  else ip.dropWhile (fun c => c = '0')

/-- Trailing zeros of the fraction digits are dropped. -/
def normFracPart (fp : Str) : Str :=
  (fp.reverse.dropWhile (fun c => c = '0')).reverse

/-- Canonical decimal form from sign / integer digits / fraction digits:
drop leading zeros of the integer part (keeping one `0`), drop trailing zeros
of the fraction, omit an empty fraction.  This is the shape Go's
`strconv.FormatFloat(_, 'f', -1, 32)` produces for plain decimal values. -/
def canonOf (neg : Bool) (ip fp : Str) : Str :=
  (if neg then ['-'] else []) ++ normIntPart ip ++
    (if normFracPart fp = [] then [] else '.' :: normFracPart fp)

/-- Models the composite of Go `strconv.ParseFloat(s, 32)` with the canonical
re-rendering `strconv.FormatFloat(_, 'f', -1, 32)`.  Go guarantees that the
shortest formatting re-parses to the identical `float32`; we therefore
represent a `float32` duration by its canonical decimal string and model
parsing as decimal canonicalization.  The grammar is the plain decimal subset
`[+|-] digits [. digits]` of Go's float syntax (exponents, `Inf`/`NaN`, hex
mantissas and `float32` overflow are not modelled). -/
def parseFloatRest (neg : Bool) (rest : Str) : Option Str :=
  match cut '.' rest with
  | none =>
    if rest ≠ [] ∧ rest.all Char.isDigit then some (canonOf neg rest []) else none
  | some (ip, fp) =>
    if (ip ++ fp) ≠ [] ∧ ip.all Char.isDigit ∧ fp.all Char.isDigit then
      some (canonOf neg ip fp)
    else none

/-- Sign handling of the modelled float parser: an optional leading sign,
negative kept, positive dropped (see `parseFloatRest`). -/
def parseFloat32 (s : Str) : Option Str :=
  if s.head? = some '-' ∨ s.head? = some '+' then
    parseFloatRest (decide (s.head? = some '-')) s.tail
  else parseFloatRest false s

/-- A `float32` duration value in canonical rendered form (see
`parseFloat32`). -/
def IsCanonF32 (d : Str) : Prop := parseFloat32 d = some d

/-! ## The data model (`hls/manifest.go`) -/

/-- `Segment` of `hls/manifest.go`.  `duration` is the `float32` field in its
canonical rendered form (see `parseFloat32`). -/
structure Segment where
  path : Str
  duration : Str
  title : Str
deriving DecidableEq

/-- `SegmentGroup` of `hls/manifest.go`. -/
structure SegmentGroup where
  segments : List Segment
deriving DecidableEq

/-- `Manifest` of `hls/manifest.go`.  `version` and `targetDuration` are Go
`uint8`, `mediaSequence` and `discontinuitySequence` are Go `uint32`; all are
modelled as `Nat`, with mod-`2^32` reduction applied exactly where the Go code
performs `uint32` addition. -/
structure Manifest where
  version : Nat
  targetDuration : Nat
  mediaSequence : Nat
  discontinuitySequence : Nat
  hasEndList : Bool
  segmentGroups : List SegmentGroup
deriving DecidableEq

/-- Go's zero value `Manifest{}`. -/
def Manifest.empty : Manifest :=
  { version := 0, targetDuration := 0, mediaSequence := 0,
    discontinuitySequence := 0, hasEndList := false, segmentGroups := [] }

/-- `Manifest.SegmentCount` of `hls/manifest.go`: the sum of group sizes. -/
def Manifest.segmentCount (m : Manifest) : Nat :=
  m.segmentGroups.foldl (fun count g => count + g.segments.length) 0

/-! ## The merger (`Manifest.Merge`) -/

/-- `Manifest.Merge` of the merger file: raise `targetDuration` and `version`
to the other manifest's values when they are larger, append the other
manifest's groups, and report whether either scalar had to be raised.
The mutation of the receiver is modelled by returning the new manifest
together with the returned `bool`. -/
def Manifest.merge (m m2 : Manifest) : Manifest × Bool :=
  ({ m with
      targetDuration :=
        if m.targetDuration < m2.targetDuration then m2.targetDuration
        else m.targetDuration,
      version := if m.version < m2.version then m2.version else m.version,
      segmentGroups := m.segmentGroups ++ m2.segmentGroups },
   decide (m.targetDuration < m2.targetDuration) ||
     decide (m.version < m2.version))

/-! ## The count manipulator (`hls/count_manipulator.go`) -/

/-- `SegmentGroup.RemoveFromStart`: remove up to `n` segments from the head,
returning the new group and the count actually removed.  `n` is a Go `int`. -/
def SegmentGroup.removeFromStart (g : SegmentGroup) (n : Int) :
    SegmentGroup × Nat :=
  if n ≤ 0 then (g, 0)
  else if (g.segments.length : Int) ≤ n then (⟨[]⟩, g.segments.length)
  else
    (⟨g.segments.drop n.toNat⟩,
     g.segments.length - (g.segments.drop n.toNat).length)

/-- `SegmentGroup.RemoveFromEnd`: remove up to `n` segments from the tail,
returning the new group and the count actually removed. -/
def SegmentGroup.removeFromEnd (g : SegmentGroup) (n : Int) :
    SegmentGroup × Nat :=
  if n ≤ 0 then (g, 0)
  else if (g.segments.length : Int) ≤ n then (⟨[]⟩, g.segments.length)
  else
    (⟨g.segments.take (g.segments.length - n.toNat)⟩,
     g.segments.length - (g.segments.take (g.segments.length - n.toNat)).length)

/-- Result of the `Manifest.RemoveFromStart` loop: the rebuilt group list, the
updated `mediaSequence` and `discontinuitySequence`, and the two returned
counts. -/
structure RemoveStartResult where
  groups : List SegmentGroup
  mediaSequence : Nat
  discontinuitySequence : Nat
  groupsRemoved : Nat
  segmentsRemoved : Nat
deriving DecidableEq

/-- The loop of `Manifest.RemoveFromStart`, walking the groups head-first.
`uint32` counter updates reduce modulo `2^32` as in Go. -/
def removeStartLoop : List SegmentGroup → Int → Nat → Nat → RemoveStartResult
  | [], _, ms, ds =>
    { groups := [], mediaSequence := ms, discontinuitySequence := ds,
      groupsRemoved := 0, segmentsRemoved := 0 }
  | g :: rest, n, ms, ds =>
    if n ≤ 0 then
      let r := removeStartLoop rest n ms ds
      { r with groups := g :: r.groups }
    else
      let gr := g.removeFromStart n
      if gr.1.segments.length = 0 then
        let r := removeStartLoop rest (n - gr.2) ((ms + gr.2) % 2 ^ 32)
          ((ds + 1) % 2 ^ 32)
        { r with groupsRemoved := r.groupsRemoved + 1,
                 segmentsRemoved := r.segmentsRemoved + gr.2 }
      else
        let r := removeStartLoop rest (n - gr.2) ((ms + gr.2) % 2 ^ 32) ds
        { r with groups := gr.1 :: r.groups,
                 segmentsRemoved := r.segmentsRemoved + gr.2 }

/-- `Manifest.RemoveFromStart` of `hls/count_manipulator.go`: the mutated
manifest together with the returned pair
`(segmentsGroupRemoved, segmentsRemoved)`. -/
def Manifest.removeFromStart (m : Manifest) (n : Int) :
    Manifest × Nat × Nat :=
  let r := removeStartLoop m.segmentGroups n m.mediaSequence
    m.discontinuitySequence
  ({ m with segmentGroups := r.groups, mediaSequence := r.mediaSequence,
            discontinuitySequence := r.discontinuitySequence },
   r.groupsRemoved, r.segmentsRemoved)

/-- Result of the `Manifest.RemoveFromEnd` loop (the media sequence is only
updated once, after the loop). -/
structure RemoveEndResult where
  groups : List SegmentGroup
  discontinuitySequence : Nat
  groupsRemoved : Nat
  segmentsRemoved : Nat
deriving DecidableEq

/-- The loop of `Manifest.RemoveFromEnd`, walking the groups tail-first
(`slices.Backward`); kept groups are prepended, preserving order.  The head
group is processed with the budget left over after the whole tail has been
consumed, exactly as in the backward iteration. -/
def removeEndLoop : List SegmentGroup → Int → Nat → RemoveEndResult
  | [], _, ds =>
    { groups := [], discontinuitySequence := ds, groupsRemoved := 0,
      segmentsRemoved := 0 }
  | g :: rest, n, ds =>
    let r := removeEndLoop rest n ds
    let n' := n - r.segmentsRemoved
    if n' ≤ 0 then { r with groups := g :: r.groups }
    else
      let gr := g.removeFromEnd n'
      if gr.1.segments.length = 0 then
        { r with discontinuitySequence := (r.discontinuitySequence + 1) % 2 ^ 32,
                 groupsRemoved := r.groupsRemoved + 1,
                 segmentsRemoved := r.segmentsRemoved + gr.2 }
      else
        { r with groups := gr.1 :: r.groups,
                 segmentsRemoved := r.segmentsRemoved + gr.2 }

/-- `Manifest.RemoveFromEnd` of `hls/count_manipulator.go`: the mutated
manifest together with the returned pair; `mediaSequence` is increased once,
at the end, by the total number of segments removed. -/
def Manifest.removeFromEnd (m : Manifest) (n : Int) :
    Manifest × Nat × Nat :=
  let r := removeEndLoop m.segmentGroups n m.discontinuitySequence
  ({ m with segmentGroups := r.groups,
            discontinuitySequence := r.discontinuitySequence,
            mediaSequence := (m.mediaSequence + r.segmentsRemoved) % 2 ^ 32 },
   r.groupsRemoved, r.segmentsRemoved)

/-! ## The parser (`ParseHlsManifest`) -/

/-- `DeclarationField`. -/
def declarationField : Str := "#EXTM3U".toList

/-- `VersionField`. -/
def versionField : Str := "#EXT-X-VERSION".toList

/-- `TargetDurationField`. -/
def targetDurationField : Str := "#EXT-X-TARGETDURATION".toList

/-- `MediaSequenceField`. -/
def mediaSequenceField : Str := "#EXT-X-MEDIA-SEQUENCE".toList

/-- `DiscontinuitySequenceField`. -/
def discontinuitySequenceField : Str := "#EXT-X-DISCONTINUITY-SEQUENCE".toList

/-- `SegmentField`. -/
def segmentField : Str := "#EXTINF".toList

/-- `DiscontinuityField`. -/
def discontinuityField : Str := "#EXT-DISCONTINUITY".toList

/-- `EndListField`. -/
def endListField : Str := "#EXT-X-ENDLIST".toList

/-- The error causes wrapped in a `ParseError`: the four sentinel errors of the
package plus the two failure modes of the `strconv` numeric parsers. -/
inductive ErrKind where
  | requiredFieldMissing
  | segmentPathMissing
  | fieldRequireValue
  | invalidField
  | numSyntax
  | numRange
deriving DecidableEq

/-- `ParseError` of the parser file: offending field (for `ErrInvalidField`,
the offending line itself), 1-based line number, and cause. -/
structure ParseError where
  field : Str
  line : Nat
  err : ErrKind
deriving DecidableEq

/-- `declarationError()`. -/
def declarationErr : ParseError :=
  { field := declarationField, line := 1, err := .requiredFieldMissing }

/-- `segmentPathError(line)`. -/
def segmentPathErr (line : Nat) : ParseError :=
  { field := segmentField, line := line, err := .segmentPathMissing }

/-- `parseUintValue(field, line, lineNumber, bitSize)`: empty value fails with
`ErrFieldRequireValue`; `strconv.ParseUint` rejects non-digit strings
(syntax) and values `≥ 2^bitSize` (range), both wrapped as field errors. -/
def parseUintValue (field : Str) (line : Str) (lineNumber : Nat) (bits : Nat) :
    Except ParseError Nat :=
  if getValue line = [] then .error ⟨field, lineNumber, .fieldRequireValue⟩
  else
    match parseUintDigits (getValue line) with
    | none => .error ⟨field, lineNumber, .numSyntax⟩
    | some n =>
      if n < 2 ^ bits then .ok n
      else .error ⟨field, lineNumber, .numRange⟩

/-- The pending segment of the parser (`tempSegment` before its path line):
duration in canonical form plus title. -/
structure PendingSegment where
  duration : Str
  title : Str
deriving DecidableEq

/-- The code after the parse loop (also reached by the `EndListField` break):
a still-pending segment fails with `MissingSegmentPath` at `endLine`
(`len(lines)+1` in Go); a pending group is appended as the final group. -/
def finishParse (man : Manifest) (g : Option SegmentGroup)
    (s : Option PendingSegment) (endLine : Nat) : Except ParseError Manifest :=
  match s with
  | some _ => .error (segmentPathErr endLine)
  | none =>
    match g with
    | some grp =>
      .ok { man with segmentGroups := man.segmentGroups ++ [grp] }
    | none => .ok man

/-- Result of handling one line of the parse loop: a terminal error, a
normal continuation with the updated state, or a stop (the `EndListField`
break) with the updated state. -/
inductive StepResult where
  | err (e : ParseError)
  | cont (man : Manifest) (g : Option SegmentGroup) (s : Option PendingSegment)
  | stop (man : Manifest) (g : Option SegmentGroup) (s : Option PendingSegment)
deriving DecidableEq

/-- The body of the `ParseHlsManifest` loop for one line: the `else if` chain
over the directive prefixes, with the pending-group (`tempSegmentGroup`) and
pending-segment (`tempSegment`) state. -/
def parseLine (line : Str) (lineNumber : Nat) (man : Manifest)
    (g : Option SegmentGroup) (s : Option PendingSegment) : StepResult :=
  if versionField.isPrefixOf line then
    match parseUintValue versionField line lineNumber 8 with
    | .error e => .err e
    | .ok v => .cont { man with version := v } g s
  else if targetDurationField.isPrefixOf line then
    match parseUintValue targetDurationField line lineNumber 8 with
    | .error e => .err e
    | .ok v => .cont { man with targetDuration := v } g s
  else if mediaSequenceField.isPrefixOf line then
    match parseUintValue mediaSequenceField line lineNumber 32 with
    | .error e => .err e
    | .ok v => .cont { man with mediaSequence := v } g s
  else if discontinuitySequenceField.isPrefixOf line then
    match parseUintValue discontinuitySequenceField line lineNumber 32 with
    | .error e => .err e
    | .ok v => .cont { man with discontinuitySequence := v } g s
  else if segmentField.isPrefixOf line then
    match s with
    | some _ => .err (segmentPathErr lineNumber)
    | none =>
      match cut ',' (getValue line) with
      | none => .err ⟨segmentField, lineNumber, .fieldRequireValue⟩
      | some (durationValue, title) =>
        match parseFloat32 durationValue with
        | none => .err ⟨segmentField, lineNumber, .numSyntax⟩
        | some d =>
          .cont man
            (match g with
             | none => some ⟨[]⟩
             | some grp => some grp)
            (some ⟨d, title⟩)
  else if discontinuityField.isPrefixOf line then
    .cont
      (match g with
       | some grp => { man with segmentGroups := man.segmentGroups ++ [grp] }
       | none => man)
      none s
  else if endListField.isPrefixOf line then
    .stop { man with hasEndList := true } g s
  else
    match s, g with
    | some ps, some grp =>
      .cont man (some ⟨grp.segments ++ [⟨line, ps.duration, ps.title⟩]⟩) none
    | some _, none => .err ⟨line, lineNumber, .invalidField⟩
    | none, _ => .err ⟨line, lineNumber, .invalidField⟩

/-- The line loop of `ParseHlsManifest`: one forward pass, line numbers
starting at 2 for the first line after the declaration; an `err` aborts, a
`stop` (the end-marker break) jumps to the post-loop code. -/
def parseLoop : List Str → Nat → Nat → Manifest → Option SegmentGroup →
    Option PendingSegment → Except ParseError Manifest
  | [], _, endLine, man, g, s => finishParse man g s endLine
  | line :: rest, lineNumber, endLine, man, g, s =>
    match parseLine line lineNumber man g s with
    | .err e => .error e
    | .cont man' g' s' => parseLoop rest (lineNumber + 1) endLine man' g' s'
    | .stop man' g' s' => finishParse man' g' s' endLine

/-- `ParseHlsManifest(data)`: split at newlines, require the declaration as
the first line (failing at line 1 otherwise), then run the line loop.  The
end-of-input error line is `len(lines)+1` where `lines` excludes the
declaration line. -/
def parseHlsManifest (data : Str) : Except ParseError Manifest :=
  if (splitLines data).headI ≠ declarationField then .error declarationErr
  else
    parseLoop (splitLines data).tail 2 ((splitLines data).tail.length + 1)
      Manifest.empty none none

/-! ## The serializer (`Manifest.String`) -/

/-- The two lines a segment renders to: the `#EXTINF` info line (duration in
canonical form, a comma, then the title) and the path line. -/
def Segment.renderLines (seg : Segment) : List Str :=
  [segmentField ++ ':' :: (seg.duration ++ ',' :: seg.title), seg.path]

/-- The lines of one group: two lines per segment, in order. -/
def SegmentGroup.renderLines (g : SegmentGroup) : List Str :=
  (g.segments.map Segment.renderLines).flatten

/-- The lines of all groups, with a discontinuity-marker line after every
group except the last. -/
def groupsRenderLines : List SegmentGroup → List Str
  | [] => []
  | [g] => g.renderLines
  | g :: g2 :: gs => g.renderLines ++ discontinuityField ::
      groupsRenderLines (g2 :: gs)

/-- All lines of `Manifest.String`: declaration, the four scalar headers
(target duration via `FormatFloat` of an integral value, i.e. plain decimal),
the groups, and the end-marker when `hasEndList` is set. -/
def Manifest.renderLines (m : Manifest) : List Str :=
  declarationField ::
    (versionField ++ ':' :: natToStr m.version) ::
    (targetDurationField ++ ':' :: natToStr m.targetDuration) ::
    (mediaSequenceField ++ ':' :: natToStr m.mediaSequence) ::
    (discontinuitySequenceField ++ ':' :: natToStr m.discontinuitySequence) ::
    (groupsRenderLines m.segmentGroups ++
      if m.hasEndList then [endListField] else [])

/-- `Manifest.String()`: every line terminated by a newline. -/
def Manifest.render (m : Manifest) : Str := joinLines m.renderLines

/-! ## Specification-side walks for the count manipulator

These two definitions follow the words of the specification (not the code) and
are compared with the embedded code by refinement theorems. -/

/-- Modelled from the spec: `RemoveFromStart` walks groups head-first; for
each group it removes up to the remaining budget many segments from the head,
clamped to the group's size; a group that becomes empty is dropped and bumps
the discontinuity sequence; the media sequence advances by the count removed
from each touched group whether or not it was fully consumed; groups not
reached once the budget is exhausted are kept unchanged. -/
def removeStartSpecWalk : List SegmentGroup → Int → Nat → Nat →
    RemoveStartResult
  | [], _, ms, ds =>
    { groups := [], mediaSequence := ms, discontinuitySequence := ds,
      groupsRemoved := 0, segmentsRemoved := 0 }
  | g :: rest, budget, ms, ds =>
    if budget ≤ 0 then
      let r := removeStartSpecWalk rest budget ms ds
      { r with groups := g :: r.groups }
    else
      let k := min budget.toNat g.segments.length
      if g.segments.length ≤ k then
        let r := removeStartSpecWalk rest (budget - k) ((ms + k) % 2 ^ 32)
          ((ds + 1) % 2 ^ 32)
        { r with groupsRemoved := r.groupsRemoved + 1,
                 segmentsRemoved := r.segmentsRemoved + k }
      else
        let r := removeStartSpecWalk rest (budget - k) ((ms + k) % 2 ^ 32) ds
        { r with groups := ⟨g.segments.drop k⟩ :: r.groups,
                 segmentsRemoved := r.segmentsRemoved + k }

/-- Modelled from the spec: `RemoveFromEnd` walks groups tail-first; each
group loses up to the remaining budget many segments from its tail, clamped
to its size; a group that becomes empty is dropped and bumps the
discontinuity sequence; surviving and untouched groups are kept in order.
The media sequence is not touched here: it is increased once, at the end of
the call, by the total removed. -/
def removeEndSpecWalk : List SegmentGroup → Int → Nat → RemoveEndResult
  | [], _, ds =>
    { groups := [], discontinuitySequence := ds, groupsRemoved := 0,
      segmentsRemoved := 0 }
  | g :: rest, budget, ds =>
    let r := removeEndSpecWalk rest budget ds
    let b := budget - r.segmentsRemoved
    if b ≤ 0 then { r with groups := g :: r.groups }
    else
      let k := min b.toNat g.segments.length
      if g.segments.length ≤ k then
        { r with
            discontinuitySequence := (r.discontinuitySequence + 1) % 2 ^ 32,
            groupsRemoved := r.groupsRemoved + 1,
            segmentsRemoved := r.segmentsRemoved + k }
      else
        { r with
            groups := ⟨g.segments.take (g.segments.length - k)⟩ :: r.groups,
            segmentsRemoved := r.segmentsRemoved + k }

/-- Sum of the group sizes of a group list. -/
def sumSegLens (gs : List SegmentGroup) : Nat :=
  (gs.map (fun g => g.segments.length)).sum

/-- A segment used by the concrete examples of the claims. -/
def exSeg (p : Str) : Segment := { path := p, duration := ['1'], title := [] }

/-- The example manifest of the spec's `RemoveFromStart`/`RemoveFromEnd`
properties: group sizes `[2, 3]`, `mediaSequence = 0`,
`discontinuitySequence = 0`. -/
def exManifest23 : Manifest :=
  { version := 3, targetDuration := 8, mediaSequence := 0,
    discontinuitySequence := 0, hasEndList := false,
    segmentGroups :=
      [⟨[exSeg ['a'], exSeg ['b']]⟩,
       ⟨[exSeg ['c'], exSeg ['d'], exSeg ['e']]⟩] }

/-! ## Helper lemmas for the count manipulator -/

/-- With a positive budget, the group-level head removal drops exactly the
clamped count `min n.toNat (length)` from the front. -/
theorem SegmentGroup.removeFromStart_pos (g : SegmentGroup) (n : Int)
    (hn : 0 < n) :
    g.removeFromStart n =
      (⟨g.segments.drop (min n.toNat g.segments.length)⟩,
        min n.toNat g.segments.length) := by
  unfold SegmentGroup.removeFromStart
  rw [if_neg (by omega)]
  by_cases h : (g.segments.length : Int) ≤ n
  · rw [if_pos h]
    have hmin : min n.toNat g.segments.length = g.segments.length := by omega
    rw [hmin, List.drop_length]
  · rw [if_neg h]
    have hmin : min n.toNat g.segments.length = n.toNat := by omega
    rw [hmin]
    refine Prod.ext rfl ?_
    simp only [List.length_drop]
    omega

/-- With a positive budget, the group-level tail removal keeps exactly the
first `length - min n.toNat length` segments. -/
theorem SegmentGroup.removeFromEnd_pos (g : SegmentGroup) (n : Int)
    (hn : 0 < n) :
    g.removeFromEnd n =
      (⟨g.segments.take
          (g.segments.length - min n.toNat g.segments.length)⟩,
        min n.toNat g.segments.length) := by
  unfold SegmentGroup.removeFromEnd
  rw [if_neg (by omega)]
  by_cases h : (g.segments.length : Int) ≤ n
  · rw [if_pos h]
    have hmin : min n.toNat g.segments.length = g.segments.length := by omega
    rw [hmin, Nat.sub_self, List.take_zero]
  · rw [if_neg h]
    have hmin : min n.toNat g.segments.length = n.toNat := by omega
    rw [hmin]
    refine Prod.ext rfl ?_
    simp only [List.length_take]
    omega

/-- The code's head-first removal loop coincides with the spec's walk. -/
theorem removeStartLoop_eq_spec (gs : List SegmentGroup) :
    ∀ (n : Int) (ms ds : Nat),
      removeStartLoop gs n ms ds = removeStartSpecWalk gs n ms ds := by
  induction gs with
  | nil => intro n ms ds; rfl
  | cons g rest ih =>
    intro n ms ds
    unfold removeStartLoop removeStartSpecWalk
    by_cases h0 : n ≤ 0
    · rw [if_pos h0, if_pos h0, ih]
    · rw [if_neg h0, if_neg h0,
        SegmentGroup.removeFromStart_pos g n (by omega)]
      by_cases hlen : g.segments.length ≤ min n.toNat g.segments.length
      · rw [if_pos (by simp only [List.length_drop]; omega), if_pos hlen, ih]
      · rw [if_neg (by simp only [List.length_drop]; omega), if_neg hlen, ih]

/-- The code's tail-first removal loop coincides with the spec's walk. -/
theorem removeEndLoop_eq_spec (gs : List SegmentGroup) :
    ∀ (n : Int) (ds : Nat),
      removeEndLoop gs n ds = removeEndSpecWalk gs n ds := by
  induction gs with
  | nil => intro n ds; rfl
  | cons g rest ih =>
    intro n ds
    unfold removeEndLoop removeEndSpecWalk
    rw [ih]
    by_cases h0 : n - (removeEndSpecWalk rest n ds).segmentsRemoved ≤ 0
    · rw [if_pos h0, if_pos h0]
    · rw [if_neg h0, if_neg h0,
        SegmentGroup.removeFromEnd_pos g _ (by omega)]
      by_cases hlen : g.segments.length ≤
          min (n - (removeEndSpecWalk rest n ds).segmentsRemoved).toNat
            g.segments.length
      · rw [if_pos (by simp only [List.length_take]; omega), if_pos hlen]
      · rw [if_neg (by simp only [List.length_take]; omega), if_neg hlen]

/-- `SegmentCount` is the sum of the group sizes. -/
theorem Manifest.segmentCount_eq (m : Manifest) :
    m.segmentCount = sumSegLens m.segmentGroups := by
  have key : ∀ (gs : List SegmentGroup) (a : Nat),
      gs.foldl (fun count g => count + g.segments.length) a =
        a + sumSegLens gs := by
    intro gs
    induction gs with
    | nil => intro a; simp [sumSegLens]
    | cons g rest ih =>
      intro a
      simp only [List.foldl_cons, ih, sumSegLens, List.map_cons, List.sum_cons]
      omega
  simpa using key m.segmentGroups 0

/-- A budget exceeding the total size empties every group head-first: no
group survives, and the removed counts report the true totals. -/
theorem removeStartLoop_all (gs : List SegmentGroup) :
    ∀ (n : Int) (ms ds : Nat), (sumSegLens gs : Int) < n →
      (removeStartLoop gs n ms ds).groups = [] ∧
      (removeStartLoop gs n ms ds).groupsRemoved = gs.length ∧
      (removeStartLoop gs n ms ds).segmentsRemoved = sumSegLens gs := by
  induction gs with
  | nil =>
    intro n ms ds h
    exact ⟨rfl, rfl, rfl⟩
  | cons g rest ih =>
    intro n ms ds h
    have hsum : sumSegLens (g :: rest) = g.segments.length + sumSegLens rest := by
      simp [sumSegLens]
    rw [hsum] at h
    unfold removeStartLoop
    rw [if_neg (by omega), SegmentGroup.removeFromStart_pos g n (by omega)]
    have hmin : min n.toNat g.segments.length = g.segments.length := by omega
    rw [hmin]
    rw [if_pos (by simp)]
    obtain ⟨h1, h2, h3⟩ := ih (n - g.segments.length)
      ((ms + g.segments.length) % 2 ^ 32) ((ds + 1) % 2 ^ 32) (by omega)
    refine ⟨h1, ?_, ?_⟩
    · simp only [h2, List.length_cons]
    · simp only [h3, hsum]; omega

/-- A budget exceeding the total size empties every group tail-first: no
group survives, and the removed counts report the true totals. -/
theorem removeEndLoop_all (gs : List SegmentGroup) :
    ∀ (n : Int) (ds : Nat), (sumSegLens gs : Int) < n →
      (removeEndLoop gs n ds).groups = [] ∧
      (removeEndLoop gs n ds).groupsRemoved = gs.length ∧
      (removeEndLoop gs n ds).segmentsRemoved = sumSegLens gs := by
  induction gs with
  | nil =>
    intro n ds h
    exact ⟨rfl, rfl, rfl⟩
  | cons g rest ih =>
    intro n ds h
    have hsum : sumSegLens (g :: rest) = g.segments.length + sumSegLens rest := by
      simp [sumSegLens]
    rw [hsum] at h
    obtain ⟨h1, h2, h3⟩ := ih n ds (by omega)
    unfold removeEndLoop
    simp only [h3]
    rw [if_neg (by omega), SegmentGroup.removeFromEnd_pos g _ (by omega)]
    have hmin : min ((n - (sumSegLens rest : Int))).toNat g.segments.length =
        g.segments.length := by omega
    rw [hmin]
    rw [if_pos (by simp)]
    refine ⟨h1, ?_, ?_⟩
    · simp only [h2, List.length_cons]
    · simp only [h3, hsum]; omega

/-- A non-positive budget leaves the head-first loop a no-op. -/
theorem removeStartLoop_nonpos (gs : List SegmentGroup) :
    ∀ (n : Int) (ms ds : Nat), n ≤ 0 →
      removeStartLoop gs n ms ds =
        { groups := gs, mediaSequence := ms, discontinuitySequence := ds,
          groupsRemoved := 0, segmentsRemoved := 0 } := by
  induction gs with
  | nil => intro n ms ds h; rfl
  | cons g rest ih =>
    intro n ms ds h
    unfold removeStartLoop
    rw [if_pos h, ih n ms ds h]

/-- A non-positive budget leaves the tail-first loop a no-op. -/
theorem removeEndLoop_nonpos (gs : List SegmentGroup) :
    ∀ (n : Int) (ds : Nat), n ≤ 0 →
      removeEndLoop gs n ds =
        { groups := gs, discontinuitySequence := ds, groupsRemoved := 0,
          segmentsRemoved := 0 } := by
  induction gs with
  | nil => intro n ds h; rfl
  | cons g rest ih =>
    intro n ds h
    unfold removeEndLoop
    rw [ih n ds h]
    simp only
    rw [if_pos (by omega)]

/-- The head-first loop never keeps an empty group when all input groups are
non-empty. -/
theorem removeStartLoop_nonempty (gs : List SegmentGroup) :
    ∀ (n : Int) (ms ds : Nat), (∀ g ∈ gs, g.segments ≠ []) →
      ∀ g ∈ (removeStartLoop gs n ms ds).groups, g.segments ≠ [] := by
  induction gs with
  | nil => intro n ms ds _ g hg; simp [removeStartLoop] at hg
  | cons g rest ih =>
    intro n ms ds hne g' hg'
    unfold removeStartLoop at hg'
    by_cases h0 : n ≤ 0
    · rw [if_pos h0] at hg'
      simp only [List.mem_cons] at hg'
      rcases hg' with rfl | hg'
      · exact hne g' (List.mem_cons_self g' rest)
      · exact ih n ms ds (fun x hx => hne x (List.mem_cons_of_mem g hx)) g' hg'
    · rw [if_neg h0] at hg'
      by_cases hz : (g.removeFromStart n).1.segments.length = 0
      · rw [if_pos hz] at hg'
        exact ih _ _ _ (fun x hx => hne x (List.mem_cons_of_mem g hx)) g' hg'
      · rw [if_neg hz] at hg'
        simp only [List.mem_cons] at hg'
        rcases hg' with rfl | hg'
        · exact fun hcon => hz (by rw [hcon]; rfl)
        · exact ih _ _ _ (fun x hx => hne x (List.mem_cons_of_mem g hx)) g' hg'

/-- The tail-first loop never keeps an empty group when all input groups are
non-empty. -/
theorem removeEndLoop_nonempty (gs : List SegmentGroup) :
    ∀ (n : Int) (ds : Nat), (∀ g ∈ gs, g.segments ≠ []) →
      ∀ g ∈ (removeEndLoop gs n ds).groups, g.segments ≠ [] := by
  induction gs with
  | nil => intro n ds _ g hg; simp [removeEndLoop] at hg
  | cons g rest ih =>
    intro n ds hne g' hg'
    unfold removeEndLoop at hg'
    have hrest := ih n ds (fun x hx => hne x (List.mem_cons_of_mem g hx))
    by_cases h0 : n - (removeEndLoop rest n ds).segmentsRemoved ≤ 0
    · rw [if_pos h0] at hg'
      simp only [List.mem_cons] at hg'
      rcases hg' with rfl | hg'
      · exact hne g' (List.mem_cons_self g' rest)
      · exact hrest g' hg'
    · rw [if_neg h0] at hg'
      by_cases hz : (g.removeFromEnd
          (n - (removeEndLoop rest n ds).segmentsRemoved)).1.segments.length = 0
      · rw [if_pos hz] at hg'
        exact hrest g' hg'
      · rw [if_neg hz] at hg'
        simp only [List.mem_cons] at hg'
        rcases hg' with rfl | hg'
        · exact fun hcon => hz (by rw [hcon]; rfl)
        · exact hrest g' hg'

/-! ## Claim theorems for the count manipulator and the merger -/

/-- C1: for every manifest and every `n > 0`, `RemoveFromStart(n)` performs
exactly the head-first clamped walk of the spec (empty groups dropped with a
discontinuity-sequence bump, the media sequence advanced by the count removed
from each touched group, untouched groups kept); on the `[2,3]` example,
`RemoveFromStart(1)` gives `mediaSequence=1`, `discontinuitySequence=0`,
sizes `[1,3]`, and `RemoveFromStart(3)` gives `mediaSequence=3`,
`discontinuitySequence=1`, sizes `[2]`. -/
theorem claim1_removeFromStart (m : Manifest) (n : Int) (_hn : 0 < n) :
    (m.removeFromStart n =
      ({ m with
          segmentGroups := (removeStartSpecWalk m.segmentGroups n
            m.mediaSequence m.discontinuitySequence).groups,
          mediaSequence := (removeStartSpecWalk m.segmentGroups n
            m.mediaSequence m.discontinuitySequence).mediaSequence,
          discontinuitySequence := (removeStartSpecWalk m.segmentGroups n
            m.mediaSequence m.discontinuitySequence).discontinuitySequence },
        (removeStartSpecWalk m.segmentGroups n m.mediaSequence
          m.discontinuitySequence).groupsRemoved,
        (removeStartSpecWalk m.segmentGroups n m.mediaSequence
          m.discontinuitySequence).segmentsRemoved)) ∧
    ((exManifest23.removeFromStart 1).1.mediaSequence = 1 ∧
     (exManifest23.removeFromStart 1).1.discontinuitySequence = 0 ∧
     (exManifest23.removeFromStart 1).1.segmentGroups.map
       (fun g => g.segments.length) = [1, 3]) ∧
    ((exManifest23.removeFromStart 3).1.mediaSequence = 3 ∧
     (exManifest23.removeFromStart 3).1.discontinuitySequence = 1 ∧
     (exManifest23.removeFromStart 3).1.segmentGroups.map
       (fun g => g.segments.length) = [2]) := by
  refine ⟨?_, by decide, by decide⟩
  unfold Manifest.removeFromStart
  rw [removeStartLoop_eq_spec]

/-- Witness for C1 at the `[2,3]` example with `n = 5`. -/
theorem claim1_witness :
    exManifest23.removeFromStart 5 =
      ({ exManifest23 with
          segmentGroups := (removeStartSpecWalk exManifest23.segmentGroups 5
            exManifest23.mediaSequence exManifest23.discontinuitySequence).groups,
          mediaSequence := (removeStartSpecWalk exManifest23.segmentGroups 5
            exManifest23.mediaSequence
            exManifest23.discontinuitySequence).mediaSequence,
          discontinuitySequence := (removeStartSpecWalk
            exManifest23.segmentGroups 5 exManifest23.mediaSequence
            exManifest23.discontinuitySequence).discontinuitySequence },
        (removeStartSpecWalk exManifest23.segmentGroups 5
          exManifest23.mediaSequence
          exManifest23.discontinuitySequence).groupsRemoved,
        (removeStartSpecWalk exManifest23.segmentGroups 5
          exManifest23.mediaSequence
          exManifest23.discontinuitySequence).segmentsRemoved) :=
  (claim1_removeFromStart exManifest23 5 (by decide)).1

/-- C2: for every manifest and every `n > 0`, `RemoveFromEnd(n)` performs
exactly the tail-first clamped walk of the spec (empty groups dropped with a
discontinuity-sequence bump, surviving and untouched groups kept in order),
with the media sequence increased once at the end by the total removed; on
the `[2,3]` example, `RemoveFromEnd(1)` gives sizes `[2,2]`, an unchanged
discontinuity sequence and a media sequence incremented by 1. -/
theorem claim2_removeFromEnd (m : Manifest) (n : Int) (_hn : 0 < n) :
    (m.removeFromEnd n =
      ({ m with
          segmentGroups :=
            (removeEndSpecWalk m.segmentGroups n m.discontinuitySequence).groups,
          discontinuitySequence := (removeEndSpecWalk m.segmentGroups n
            m.discontinuitySequence).discontinuitySequence,
          mediaSequence := (m.mediaSequence + (removeEndSpecWalk
            m.segmentGroups n m.discontinuitySequence).segmentsRemoved) %
              2 ^ 32 },
        (removeEndSpecWalk m.segmentGroups n
          m.discontinuitySequence).groupsRemoved,
        (removeEndSpecWalk m.segmentGroups n
          m.discontinuitySequence).segmentsRemoved)) ∧
    ((exManifest23.removeFromEnd 1).1.segmentGroups.map
       (fun g => g.segments.length) = [2, 2] ∧
     (exManifest23.removeFromEnd 1).1.discontinuitySequence =
       exManifest23.discontinuitySequence ∧
     (exManifest23.removeFromEnd 1).1.mediaSequence =
       exManifest23.mediaSequence + 1) := by
  refine ⟨?_, by decide⟩
  unfold Manifest.removeFromEnd
  rw [removeEndLoop_eq_spec]

/-- Witness for C2 at the `[2,3]` example with `n = 4`. -/
theorem claim2_witness :
    exManifest23.removeFromEnd 4 =
      ({ exManifest23 with
          segmentGroups := (removeEndSpecWalk exManifest23.segmentGroups 4
            exManifest23.discontinuitySequence).groups,
          discontinuitySequence := (removeEndSpecWalk
            exManifest23.segmentGroups 4
            exManifest23.discontinuitySequence).discontinuitySequence,
          mediaSequence := (exManifest23.mediaSequence + (removeEndSpecWalk
            exManifest23.segmentGroups 4
            exManifest23.discontinuitySequence).segmentsRemoved) % 2 ^ 32 },
        (removeEndSpecWalk exManifest23.segmentGroups 4
          exManifest23.discontinuitySequence).groupsRemoved,
        (removeEndSpecWalk exManifest23.segmentGroups 4
          exManifest23.discontinuitySequence).segmentsRemoved) :=
  (claim2_removeFromEnd exManifest23 4 (by decide)).1

/-- C4: `Merge` takes the maximum of the versions and target durations,
concatenates the group lists (`g1 + g2` groups, each side's order preserved),
and returns `true` exactly when the version or the target duration was
strictly raised. -/
theorem claim4_merge (b o : Manifest) :
    (b.merge o).1.version = max b.version o.version ∧
    (b.merge o).1.targetDuration = max b.targetDuration o.targetDuration ∧
    (b.merge o).1.segmentGroups = b.segmentGroups ++ o.segmentGroups ∧
    (b.merge o).1.segmentGroups.length =
      b.segmentGroups.length + o.segmentGroups.length ∧
    ((b.merge o).2 = true ↔
      b.version < o.version ∨ b.targetDuration < o.targetDuration) := by
  unfold Manifest.merge
  refine ⟨?_, ?_, rfl, by simp, ?_⟩
  · show (if b.version < o.version then o.version else b.version) = _
    split_ifs <;> omega
  · show (if b.targetDuration < o.targetDuration then o.targetDuration
      else b.targetDuration) = _
    split_ifs <;> omega
  · simp only [Bool.or_eq_true, decide_eq_true_eq]
    exact or_comm

/-- C10: `Merge` only touches `Version`, `TargetDuration` and
`SegmentGroups`: the base manifest's `MediaSequence`,
`DiscontinuitySequence` and `HasEndList` are unchanged, so `other`'s
`HasEndList` never propagates. -/
theorem claim10_merge_frame (b o : Manifest) :
    (b.merge o).1.mediaSequence = b.mediaSequence ∧
    (b.merge o).1.discontinuitySequence = b.discontinuitySequence ∧
    (b.merge o).1.hasEndList = b.hasEndList :=
  ⟨rfl, rfl, rfl⟩

/-- C5: the removal operations never fail; a request beyond `SegmentCount`
removes everything (zero groups remain) and reports the true removed count,
and a request `n ≤ 0` is an exact no-op returning `(0, 0)`. -/
theorem claim5_remove_clamps (m : Manifest) (n : Int)
    (hms : m.mediaSequence < 2 ^ 32) :
    ((m.segmentCount : Int) < n →
      (m.removeFromStart n).1.segmentGroups = [] ∧
      (m.removeFromStart n).2.2 = m.segmentCount ∧
      (m.removeFromEnd n).1.segmentGroups = [] ∧
      (m.removeFromEnd n).2.2 = m.segmentCount) ∧
    (n ≤ 0 →
      m.removeFromStart n = (m, 0, 0) ∧ m.removeFromEnd n = (m, 0, 0)) := by
  constructor
  · intro h
    rw [Manifest.segmentCount_eq] at h
    obtain ⟨hs1, _, hs3⟩ := removeStartLoop_all m.segmentGroups n
      m.mediaSequence m.discontinuitySequence h
    obtain ⟨he1, _, he3⟩ := removeEndLoop_all m.segmentGroups n
      m.discontinuitySequence h
    refine ⟨?_, ?_, ?_, ?_⟩
    · exact hs1
    · rw [Manifest.segmentCount_eq]; exact hs3
    · exact he1
    · rw [Manifest.segmentCount_eq]; exact he3
  · intro h
    constructor
    · show ({ m with
          segmentGroups := (removeStartLoop m.segmentGroups n m.mediaSequence
            m.discontinuitySequence).groups,
          mediaSequence := (removeStartLoop m.segmentGroups n m.mediaSequence
            m.discontinuitySequence).mediaSequence,
          discontinuitySequence := (removeStartLoop m.segmentGroups n
            m.mediaSequence m.discontinuitySequence).discontinuitySequence },
        (removeStartLoop m.segmentGroups n m.mediaSequence
          m.discontinuitySequence).groupsRemoved,
        (removeStartLoop m.segmentGroups n m.mediaSequence
          m.discontinuitySequence).segmentsRemoved) = (m, 0, 0)
      rw [removeStartLoop_nonpos m.segmentGroups n m.mediaSequence
        m.discontinuitySequence h]
    · show ({ m with
          segmentGroups :=
            (removeEndLoop m.segmentGroups n m.discontinuitySequence).groups,
          discontinuitySequence := (removeEndLoop m.segmentGroups n
            m.discontinuitySequence).discontinuitySequence,
          mediaSequence := (m.mediaSequence + (removeEndLoop m.segmentGroups n
            m.discontinuitySequence).segmentsRemoved) % 2 ^ 32 },
        (removeEndLoop m.segmentGroups n
          m.discontinuitySequence).groupsRemoved,
        (removeEndLoop m.segmentGroups n
          m.discontinuitySequence).segmentsRemoved) = (m, 0, 0)
      rw [removeEndLoop_nonpos m.segmentGroups n m.discontinuitySequence h]
      simp only [Nat.add_zero, Nat.mod_eq_of_lt hms]

/-- Witness for C5 at the `[2,3]` example with `n = 9 > 5`. -/
theorem claim5_witness :
    ((exManifest23.segmentCount : Int) < 9 →
      (exManifest23.removeFromStart 9).1.segmentGroups = [] ∧
      (exManifest23.removeFromStart 9).2.2 = exManifest23.segmentCount ∧
      (exManifest23.removeFromEnd 9).1.segmentGroups = [] ∧
      (exManifest23.removeFromEnd 9).2.2 = exManifest23.segmentCount) ∧
    ((9 : Int) ≤ 0 →
      exManifest23.removeFromStart 9 = (exManifest23, 0, 0) ∧
      exManifest23.removeFromEnd 9 = (exManifest23, 0, 0)) :=
  claim5_remove_clamps exManifest23 9 (by decide)

/-- C6: if every group of a manifest is non-empty then, after
`RemoveFromStart(n)` or `RemoveFromEnd(n)` for any `n`, every remaining group
is still non-empty — a group emptied by trimming is always dropped. -/
theorem claim6_no_empty_groups (m : Manifest) (n : Int)
    (h : ∀ g ∈ m.segmentGroups, g.segments ≠ []) :
    (∀ g ∈ (m.removeFromStart n).1.segmentGroups, g.segments ≠ []) ∧
    (∀ g ∈ (m.removeFromEnd n).1.segmentGroups, g.segments ≠ []) :=
  ⟨removeStartLoop_nonempty m.segmentGroups n m.mediaSequence
      m.discontinuitySequence h,
   removeEndLoop_nonempty m.segmentGroups n m.discontinuitySequence h⟩

/-- Witness for C6 at the `[2,3]` example with `n = 3`. -/
theorem claim6_witness :
    (∀ g ∈ (exManifest23.removeFromStart 3).1.segmentGroups,
      g.segments ≠ []) ∧
    (∀ g ∈ (exManifest23.removeFromEnd 3).1.segmentGroups,
      g.segments ≠ []) :=
  claim6_no_empty_groups exManifest23 3 (by decide)

/-! ## String-level utility lemmas -/

/-- A successful `cut` is a decomposition at the first separator. -/
theorem cut_eq_some (sep : Char) :
    ∀ (s a b : Str), cut sep s = some (a, b) → s = a ++ sep :: b := by
  intro s
  induction s with
  | nil => intro a b h; simp [cut] at h
  | cons c rest ih =>
    intro a b h
    unfold cut at h
    by_cases hc : c = sep
    · rw [if_pos hc] at h
      simp only [Option.some.injEq, Prod.mk.injEq] at h
      obtain ⟨rfl, rfl⟩ := h
      simp [hc]
    · rw [if_neg hc] at h
      cases hcut : cut sep rest with
      | none => rw [hcut] at h; cases h
      | some ab =>
        rw [hcut] at h
        obtain ⟨a0, b0⟩ := ab
        simp only [Option.some.injEq, Prod.mk.injEq] at h
        obtain ⟨rfl, rfl⟩ := h
        simp [ih a0 b0 hcut]

/-- `cut` fails when the separator does not occur. -/
theorem cut_eq_none (sep : Char) :
    ∀ s : Str, sep ∉ s → cut sep s = none := by
  intro s
  induction s with
  | nil => intro _; rfl
  | cons c rest ih =>
    intro h
    unfold cut
    rw [if_neg (show ¬ c = sep from
        fun hc => h (List.mem_cons.mpr (Or.inl hc.symm))),
      ih (fun hm => h (List.mem_cons_of_mem c hm))]

/-- `cut` splits at an explicitly-placed first separator. -/
theorem cut_append (sep : Char) :
    ∀ (a b : Str), sep ∉ a → cut sep (a ++ sep :: b) = some (a, b) := by
  intro a
  induction a with
  | nil => intro b _; simp [cut]
  | cons c rest ih =>
    intro b h
    show cut sep (c :: (rest ++ sep :: b)) = _
    unfold cut
    rw [if_neg (show ¬ c = sep from
        fun hc => h (List.mem_cons.mpr (Or.inl hc.symm))),
      ih b (fun hm => h (List.mem_cons_of_mem c hm))]

/-- `getValue` recovers an explicitly-appended value. -/
theorem getValue_append (f v : Str) (hf : ':' ∉ f) :
    getValue (f ++ ':' :: v) = v := by
  unfold getValue
  rw [cut_append ':' f v hf]

/-- `splitLines` always returns at least one piece. -/
theorem splitLines_ne_nil : ∀ s : Str, splitLines s ≠ [] := by
  intro s
  cases s with
  | nil => simp [splitLines]
  | cons c rest =>
    unfold splitLines
    by_cases hc : c = '\n'
    · rw [if_pos hc]; simp
    · rw [if_neg hc]
      cases hsp : splitLines rest <;> simp

/-- Every piece produced by `splitLines` is free of newlines. -/
theorem splitLines_no_newline :
    ∀ (s l : Str), l ∈ splitLines s → '\n' ∉ l := by
  intro s
  induction s with
  | nil =>
    intro l hl
    simp only [splitLines, List.mem_singleton] at hl
    simp [hl]
  | cons c rest ih =>
    intro l hl
    unfold splitLines at hl
    by_cases hc : c = '\n'
    · rw [if_pos hc] at hl
      rcases List.mem_cons.mp hl with rfl | hl
      · simp
      · exact ih l hl
    · rw [if_neg hc] at hl
      cases hsp : splitLines rest with
      | nil => exact absurd hsp (splitLines_ne_nil rest)
      | cons l0 ls =>
        rw [hsp] at hl
        rcases List.mem_cons.mp hl with rfl | hl
        · intro hmem
          rcases List.mem_cons.mp hmem with h1 | h1
          · exact hc h1.symm
          · exact ih l0 (hsp ▸ List.mem_cons_self l0 ls) h1
        · exact ih l (hsp ▸ List.mem_cons_of_mem l0 hl)

/-- Splitting after a newline-free first line peels it off. -/
theorem splitLines_line (l rest : Str) (h : '\n' ∉ l) :
    splitLines (l ++ '\n' :: rest) = l :: splitLines rest := by
  induction l with
  | nil => simp [splitLines]
  | cons c t ih =>
    have hc : ¬ c = '\n' := fun hc => h (hc ▸ List.mem_cons_self c t)
    have ht : '\n' ∉ t := fun hm => h (List.mem_cons_of_mem c hm)
    show splitLines (c :: (t ++ '\n' :: rest)) = _
    rw [splitLines, if_neg hc, ih ht]

/-- Splitting rejoined newline-terminated lines recovers the lines plus a
final empty piece. -/
theorem splitLines_joinLines :
    ∀ L : List Str, (∀ l ∈ L, '\n' ∉ l) →
      splitLines (joinLines L) = L ++ [[]] := by
  intro L
  induction L with
  | nil => intro _; rfl
  | cons l L ih =>
    intro h
    have : joinLines (l :: L) = l ++ '\n' :: joinLines L := by
      simp [joinLines]
    rw [this, splitLines_line l _ (h l (List.mem_cons_self l L)),
      ih (fun x hx => h x (List.mem_cons_of_mem l hx))]
    rfl

/-! ## Digit and number lemmas -/

/-- A decimal digit is none of the separator characters. -/
theorem isDigit_ne (c : Char) (h : c.isDigit = true) :
    c ≠ '\n' ∧ c ≠ ':' ∧ c ≠ ',' ∧ c ≠ '.' ∧ c ≠ '-' ∧ c ≠ '+' := by
  refine ⟨?_, ?_, ?_, ?_, ?_, ?_⟩ <;>
    exact fun hEq => absurd h (by subst hEq; decide)

/-- `digitChar` produces digits. -/
theorem digitChar_isDigit (n : Nat) (h : n < 10) :
    (digitChar n).isDigit = true := by
  interval_cases n <;> decide

/-- `digitVal` inverts `digitChar` on digits. -/
theorem digitVal_digitChar (n : Nat) (h : n < 10) :
    digitVal (digitChar n) = n := by
  interval_cases n <;> decide

/-- Reading a single rendered digit. -/
theorem parseUintDigits_single (n : Nat) (h : n < 10) :
    parseUintDigits [digitChar n] = some n := by
  unfold parseUintDigits
  rw [if_pos ⟨by simp, by simp [digitChar_isDigit n h]⟩]
  simp [digitVal_digitChar n h]

/-- Appending one digit multiplies the read value by ten and adds it. -/
theorem parseUintDigits_append (a : Str) (c : Char) (va : Nat)
    (ha : parseUintDigits a = some va) (hc : c.isDigit = true) :
    parseUintDigits (a ++ [c]) = some (va * 10 + digitVal c) := by
  unfold parseUintDigits at ha ⊢
  split at ha
  case isFalse => cases ha
  case isTrue hcond =>
    simp only [Option.some.injEq] at ha
    rw [if_pos ⟨by simp, by
      simp only [List.all_append, hcond.2, Bool.true_and, List.all_cons,
        List.all_nil, Bool.and_true, hc]⟩]
    rw [List.foldl_append]
    simp [ha]

/-- The rendered decimal string of `n` is a non-empty digit string that reads
back as `n`. -/
theorem natToStrAux_spec :
    ∀ (fuel n : Nat), n < 10 ^ (fuel + 1) →
      natToStrAux (fuel + 1) n ≠ [] ∧
      (natToStrAux (fuel + 1) n).all Char.isDigit = true ∧
      parseUintDigits (natToStrAux (fuel + 1) n) = some n := by
  intro fuel
  induction fuel with
  | zero =>
    intro n h
    have h10 : n < 10 := by simpa using h
    unfold natToStrAux
    rw [if_pos h10]
    exact ⟨by simp, by simp [digitChar_isDigit n h10],
      parseUintDigits_single n h10⟩
  | succ fuel ih =>
    intro n h
    rw [natToStrAux]
    by_cases h10 : n < 10
    · rw [if_pos h10]
      exact ⟨by simp, by simp [digitChar_isDigit n h10],
        parseUintDigits_single n h10⟩
    · rw [if_neg h10]
      have hdiv : n / 10 < 10 ^ (fuel + 1) := by
        rw [Nat.div_lt_iff_lt_mul (by norm_num)]
        calc n < 10 ^ (fuel + 1 + 1) := h
        _ = 10 ^ (fuel + 1) * 10 := by ring
      obtain ⟨h1, h2, h3⟩ := ih (n / 10) hdiv
      have hm : n % 10 < 10 := Nat.mod_lt n (by norm_num)
      refine ⟨by simp, ?_, ?_⟩
      · simp only [List.all_append, h2, Bool.true_and, List.all_cons,
          List.all_nil, Bool.and_true, digitChar_isDigit (n % 10) hm]
      · rw [parseUintDigits_append _ _ _ h3 (digitChar_isDigit (n % 10) hm),
          digitVal_digitChar (n % 10) hm]
        congr 1
        omega

/-- `natToStr` renders a non-empty digit string that reads back. -/
theorem natToStr_spec (n : Nat) :
    natToStr n ≠ [] ∧ (natToStr n).all Char.isDigit = true ∧
    parseUintDigits (natToStr n) = some n := by
  have hlt : n < 10 ^ (n + 1) :=
    lt_of_lt_of_le (Nat.lt_two_pow n)
      (le_trans (Nat.pow_le_pow_left (by norm_num) n)
        (Nat.pow_le_pow_right (by norm_num) (by omega)))
  exact natToStrAux_spec n n hlt

/-- A newline never occurs in a digit string. -/
theorem no_newline_of_all_digits (s : Str)
    (h : s.all Char.isDigit = true) : '\n' ∉ s := by
  intro hm
  have := (List.all_eq_true.mp h) '\n' hm
  exact absurd this (by decide)

/-! ## `parseUintValue` lemmas -/

/-- A successful `parseUintValue` respects the bit-size bound. -/
theorem parseUintValue_ok_lt (f l : Str) (i b n : Nat)
    (h : parseUintValue f l i b = .ok n) : n < 2 ^ b := by
  unfold parseUintValue at h
  split at h
  · cases h
  · split at h
    · cases h
    · split at h
      · simp only [Except.ok.injEq] at h
        omega
      · cases h

/-- A failing `parseUintValue` reports the given field and line. -/
theorem parseUintValue_error_loc (f l : Str) (i b : Nat) (e : ParseError)
    (h : parseUintValue f l i b = .error e) :
    e.field = f ∧ e.line = i ∧ e.err ≠ .segmentPathMissing := by
  unfold parseUintValue at h
  split at h
  · simp only [Except.error.injEq] at h
    subst h; exact ⟨rfl, rfl, by simp⟩
  · split at h
    · simp only [Except.error.injEq] at h
      subst h; exact ⟨rfl, rfl, by simp⟩
    · split at h
      · cases h
      · simp only [Except.error.injEq] at h
        subst h; exact ⟨rfl, rfl, by simp⟩

/-- Reading a rendered scalar header value. -/
theorem parseUintValue_render (f : Str) (i b n : Nat) (hf : ':' ∉ f)
    (hn : n < 2 ^ b) :
    parseUintValue f (f ++ ':' :: natToStr n) i b = .ok n := by
  obtain ⟨h1, _, h3⟩ := natToStr_spec n
  unfold parseUintValue
  rw [getValue_append f _ hf]
  rw [if_neg (by simpa using h1), h3]
  simp [hn]

/-! ## Prefix lemmas -/

/-- A list is a prefix of itself followed by anything. -/
theorem isPrefixOf_append_self (A r : Str) :
    A.isPrefixOf (A ++ r) = true := by
  rw [List.isPrefixOf_iff_prefix]
  exact List.prefix_append A r

/-- Two lists that are not prefixes of one another stay non-prefixes after
appending to the second. -/
theorem not_prefix_append (A B r : Str) (hAB : A.isPrefixOf B = false)
    (hBA : B.isPrefixOf A = false) : A.isPrefixOf (B ++ r) = false := by
  by_contra hcon
  have hb : A.isPrefixOf (B ++ r) = true := by
    revert hcon
    cases hx : A.isPrefixOf (B ++ r) <;> simp
  have h1 : A <+: B ++ r := List.isPrefixOf_iff_prefix.mp hb
  rcases List.prefix_or_prefix_of_prefix h1 (List.prefix_append B r) with h | h
  · rw [← List.isPrefixOf_iff_prefix] at h
    rw [h] at hAB; cases hAB
  · rw [← List.isPrefixOf_iff_prefix] at h
    rw [h] at hBA; cases hBA

/-- A non-prefix-related pair transfers along an arbitrary prefixed line. -/
theorem not_prefix_of_prefixed (A B line : Str)
    (h : B.isPrefixOf line = true) (hAB : A.isPrefixOf B = false)
    (hBA : B.isPrefixOf A = false) : A.isPrefixOf line = false := by
  rw [List.isPrefixOf_iff_prefix] at h
  obtain ⟨r, rfl⟩ := h
  exact not_prefix_append A B r hAB hBA

/-! ## Canonical-decimal lemmas -/

/-- The head surviving `dropWhile` fails the predicate. -/
theorem dropWhile_head_not (p : Char → Bool) :
    ∀ (l : Str) (h : Char) (t : Str), l.dropWhile p = h :: t →
      p h = false := by
  intro l
  induction l with
  | nil => intro h t hyp; cases hyp
  | cons c r ih =>
    intro h t hyp
    rw [List.dropWhile_cons] at hyp
    by_cases hc : p c = true
    · rw [if_pos hc] at hyp
      exact ih h t hyp
    · rw [if_neg hc] at hyp
      cases hyp
      simpa using hc

/-- `dropWhile` is idempotent. -/
theorem dropWhile_idem (p : Char → Bool) (l : Str) :
    (l.dropWhile p).dropWhile p = l.dropWhile p := by
  cases hd : l.dropWhile p with
  | nil => rfl
  | cons h t =>
    rw [List.dropWhile_cons, if_neg (by simp [dropWhile_head_not p l h t hd])]

/-- `normIntPart` is idempotent. -/
theorem normIntPart_idem (ip : Str) :
    normIntPart (normIntPart ip) = normIntPart ip := by
  unfold normIntPart
  by_cases hd : ip.dropWhile (fun c => c = '0') = []
  · rw [if_pos hd]
    norm_num
  · rw [if_neg hd, dropWhile_idem, if_neg hd]

/-- `normFracPart` is idempotent. -/
theorem normFracPart_idem (fp : Str) :
    normFracPart (normFracPart fp) = normFracPart fp := by
  unfold normFracPart
  rw [List.reverse_reverse, dropWhile_idem]

/-- `normIntPart` is never empty. -/
theorem normIntPart_ne_nil (ip : Str) : normIntPart ip ≠ [] := by
  unfold normIntPart
  by_cases hd : ip.dropWhile (fun c => c = '0') = []
  · rw [if_pos hd]; simp
  · rw [if_neg hd]; exact hd

/-- `normIntPart` keeps the digit property. -/
theorem normIntPart_digits (ip : Str) (h : ip.all Char.isDigit = true) :
    (normIntPart ip).all Char.isDigit = true := by
  unfold normIntPart
  by_cases hd : ip.dropWhile (fun c => c = '0') = []
  · rw [if_pos hd]; decide
  · rw [if_neg hd]
    rw [List.all_eq_true] at h ⊢
    exact fun c hc => h c ((List.dropWhile_sublist _).subset hc)

/-- `normFracPart` keeps the digit property. -/
theorem normFracPart_digits (fp : Str) (h : fp.all Char.isDigit = true) :
    (normFracPart fp).all Char.isDigit = true := by
  unfold normFracPart
  rw [List.all_eq_true] at h ⊢
  intro c hc
  rw [List.mem_reverse] at hc
  exact h c (by
    have := (List.dropWhile_sublist (fun c => c = '0')).subset hc
    simpa using this)

/-- Every character of a canonical decimal is a sign, a dot, or a digit. -/
theorem canonOf_chars (neg : Bool) (ip fp : Str)
    (hip : ip.all Char.isDigit = true) (hfp : fp.all Char.isDigit = true) :
    ∀ c ∈ canonOf neg ip fp, c = '-' ∨ c = '.' ∨ c.isDigit = true := by
  intro c hc
  unfold canonOf at hc
  rw [List.append_assoc, List.mem_append] at hc
  rcases hc with hc | hc
  · left
    cases neg with
    | true => simpa using hc
    | false => simp at hc
  · rw [List.mem_append] at hc
    rcases hc with hc | hc
    · right; right
      exact List.all_eq_true.mp (normIntPart_digits ip hip) c hc
    · by_cases hemp : normFracPart fp = []
      · rw [if_pos hemp] at hc; simp at hc
      · rw [if_neg hemp] at hc
        rcases List.mem_cons.mp hc with rfl | hc
        · right; left; rfl
        · right; right
          exact List.all_eq_true.mp (normFracPart_digits fp hfp) c hc

/-- A canonical decimal contains no comma, newline or colon. -/
theorem canonOf_no_sep (neg : Bool) (ip fp : Str)
    (hip : ip.all Char.isDigit = true) (hfp : fp.all Char.isDigit = true) :
    ',' ∉ canonOf neg ip fp ∧ '\n' ∉ canonOf neg ip fp ∧
    ':' ∉ canonOf neg ip fp := by
  refine ⟨fun hm => ?_, fun hm => ?_, fun hm => ?_⟩ <;>
  · rcases canonOf_chars neg ip fp hip hfp _ hm with h | h | h <;>
      exact absurd h (by decide)

/-- A successful `parseFloatRest` yields a canonical decimal built from digit
strings. -/
theorem parseFloatRest_components (neg : Bool) (rest d : Str)
    (h : parseFloatRest neg rest = some d) :
    ∃ ip fp, ip.all Char.isDigit = true ∧ fp.all Char.isDigit = true ∧
      d = canonOf neg ip fp := by
  unfold parseFloatRest at h
  split at h
  · split at h
    · rename_i hc
      exact ⟨rest, [], hc.2, by decide, by injection h with h; exact h.symm⟩
    · cases h
  · rename_i ip fp heq
    split at h
    · rename_i hc
      exact ⟨ip, fp, hc.2.1, hc.2.2, by injection h with h; exact h.symm⟩
    · cases h

/-- A successful `parseFloat32` yields a canonical decimal built from digit
strings. -/
theorem parseFloat32_components (s d : Str) (h : parseFloat32 s = some d) :
    ∃ neg ip fp, ip.all Char.isDigit = true ∧ fp.all Char.isDigit = true ∧
      d = canonOf neg ip fp := by
  unfold parseFloat32 at h
  split at h
  · obtain ⟨ip, fp, h1, h2, h3⟩ := parseFloatRest_components _ _ _ h
    exact ⟨_, ip, fp, h1, h2, h3⟩
  · obtain ⟨ip, fp, h1, h2, h3⟩ := parseFloatRest_components _ _ _ h
    exact ⟨false, ip, fp, h1, h2, h3⟩

/-- Parsing the unsigned body of a canonical decimal recovers it. -/
theorem parseFloatRest_shape (neg : Bool) (i3 f2 : Str)
    (hi3d : i3.all Char.isDigit = true) (hf2d : f2.all Char.isDigit = true)
    (hi3ne : i3 ≠ []) :
    parseFloatRest neg (i3 ++ (if f2 = [] then [] else '.' :: f2)) =
      some (canonOf neg i3 f2) := by
  have hdotip : '.' ∉ i3 := fun hm =>
    absurd (List.all_eq_true.mp hi3d '.' hm) (by decide)
  by_cases hemp : f2 = []
  · rw [if_pos hemp, List.append_nil]
    unfold parseFloatRest
    simp only [cut_eq_none '.' i3 hdotip]
    rw [if_pos ⟨hi3ne, hi3d⟩, hemp]
  · rw [if_neg hemp]
    unfold parseFloatRest
    simp only [cut_append '.' i3 f2 hdotip]
    have hcond : i3 ++ f2 ≠ [] ∧ i3.all Char.isDigit = true ∧
        f2.all Char.isDigit = true := ⟨by simp [hi3ne], hi3d, hf2d⟩
    rw [if_pos hcond]

/-- Parsing a canonical decimal succeeds and returns it unchanged: the
format/parse round trip of `strconv` modelled on canonical decimals. -/
theorem canonOf_parse (neg : Bool) (ip fp : Str)
    (hip : ip.all Char.isDigit = true) (hfp : fp.all Char.isDigit = true) :
    parseFloat32 (canonOf neg ip fp) = some (canonOf neg ip fp) := by
  have hi3d := normIntPart_digits ip hip
  have hf2d := normFracPart_digits fp hfp
  have hi3ne := normIntPart_ne_nil ip
  have hbody : parseFloatRest neg (normIntPart ip ++
      (if normFracPart fp = [] then [] else '.' :: normFracPart fp)) =
      some (canonOf neg (normIntPart ip) (normFracPart fp)) :=
    parseFloatRest_shape neg _ _ hi3d hf2d hi3ne
  have hcanon2 : canonOf neg (normIntPart ip) (normFracPart fp) =
      canonOf neg ip fp := by
    unfold canonOf
    rw [normIntPart_idem, normFracPart_idem]
  obtain ⟨c0, t3, hi3⟩ : ∃ c0 t3, normIntPart ip = c0 :: t3 := by
    cases h : normIntPart ip with
    | nil => exact absurd h hi3ne
    | cons a b => exact ⟨a, b, rfl⟩
  have hc0d : c0.isDigit = true :=
    List.all_eq_true.mp hi3d c0 (by rw [hi3]; exact List.mem_cons_self c0 t3)
  obtain ⟨-, -, -, -, hminus0, hplus0⟩ := isDigit_ne c0 hc0d
  cases neg with
  | true =>
    have hs : canonOf true ip fp = '-' :: (normIntPart ip ++
        (if normFracPart fp = [] then [] else '.' :: normFracPart fp)) := by
      unfold canonOf
      simp
    rw [hs]
    unfold parseFloat32
    rw [if_pos (by simp)]
    simp only [List.tail_cons, List.head?_cons]
    show parseFloatRest true _ = _
    rw [hbody, hcanon2, hs]
  | false =>
    have hs : canonOf false ip fp = normIntPart ip ++
        (if normFracPart fp = [] then [] else '.' :: normFracPart fp) := by
      unfold canonOf
      simp
    rw [hs]
    unfold parseFloat32
    have hhead : (normIntPart ip ++
        (if normFracPart fp = [] then [] else '.' :: normFracPart fp)).head? =
        some c0 := by
      rw [hi3]
      rfl
    rw [if_neg (by
      rw [hhead]
      push_neg
      constructor
      · intro hcon
        exact hminus0 (by injection hcon)
      · intro hcon
        exact hplus0 (by injection hcon))]
    rw [hbody, hcanon2, hs]

/-- The values produced by `parseFloat32` re-parse to themselves: the model of
the `strconv` format/parse round trip. -/
theorem parseFloat32_canon (s d : Str) (h : parseFloat32 s = some d) :
    parseFloat32 d = some d := by
  obtain ⟨neg, ip, fp, h1, h2, rfl⟩ := parseFloat32_components s d h
  exact canonOf_parse neg ip fp h1 h2

/-- The values produced by `parseFloat32` contain no separator characters. -/
theorem parseFloat32_no_sep (s d : Str) (h : parseFloat32 s = some d) :
    ',' ∉ d ∧ '\n' ∉ d ∧ ':' ∉ d := by
  obtain ⟨neg, ip, fp, h1, h2, rfl⟩ := parseFloat32_components s d h
  exact canonOf_no_sep neg ip fp h1 h2

/-! ## Error geography of the parse loop -/

deriving instance DecidableEq for Except

/-- `finishParse` can only fail with the pending-segment error at the end
line. -/
theorem finishParse_error (man : Manifest) (g : Option SegmentGroup)
    (s : Option PendingSegment) (endLine : Nat) (e : ParseError)
    (h : finishParse man g s endLine = .error e) :
    e = segmentPathErr endLine := by
  unfold finishParse at h
  cases s with
  | some ps =>
    simp only [Except.error.injEq] at h
    exact h.symm
  | none => cases g <;> simp at h

/-- Every error produced by handling one line is located at that line, and a
`MissingSegmentPath` error always carries the `#EXTINF` field. -/
theorem parseLine_err_loc (line : Str) (i : Nat) (man : Manifest)
    (g : Option SegmentGroup) (s : Option PendingSegment) (e : ParseError)
    (h : parseLine line i man g s = .err e) :
    e.line = i ∧ (e.err = .segmentPathMissing → e.field = segmentField) := by
  unfold parseLine at h
  repeat' split at h
  all_goals
    first
    | exact StepResult.noConfusion h
    | (injection h with h
       subst h
       exact ⟨rfl, by intro hx; first | rfl | simp at hx⟩)
    | (rename_i e' heq
       injection h with h
       subst h
       obtain ⟨-, hln, hne⟩ := parseUintValue_error_loc _ _ _ _ _ heq
       exact ⟨hln, fun hx => absurd hx hne⟩)

/-- Every error of the parse loop is either the pending-segment error at the
fixed end line (field `#EXTINF`, cause `MissingSegmentPath`), or is located
at one of the lines the loop visits; a `MissingSegmentPath` error always
carries the `#EXTINF` field. -/
theorem parseLoop_error_cases (lines : List Str) :
    ∀ (i endLine : Nat) (man : Manifest) (g : Option SegmentGroup)
      (s : Option PendingSegment) (e : ParseError),
      parseLoop lines i endLine man g s = .error e →
      (e.line = endLine ∧ e.field = segmentField ∧
        e.err = .segmentPathMissing) ∨
      (i ≤ e.line ∧ e.line < i + lines.length ∧
        (e.err = .segmentPathMissing → e.field = segmentField)) := by
  induction lines with
  | nil =>
    intro i endLine man g s e h
    have := finishParse_error _ _ _ _ _ h
    subst this
    exact Or.inl ⟨rfl, rfl, rfl⟩
  | cons line rest ih =>
    intro i endLine man g s e h
    rw [parseLoop] at h
    cases hstep : parseLine line i man g s with
    | err e0 =>
      simp only [hstep, Except.error.injEq] at h
      subst h
      obtain ⟨hln, hfld⟩ := parseLine_err_loc _ _ _ _ _ _ hstep
      exact Or.inr ⟨by omega, by simp only [List.length_cons]; omega, hfld⟩
    | cont man' g' s' =>
      simp only [hstep] at h
      rcases ih _ _ _ _ _ _ h with hl | ⟨h1, h2, h3⟩
      · exact Or.inl hl
      · exact Or.inr ⟨by omega, by simp only [List.length_cons]; omega, h3⟩
    | stop man' g' s' =>
      simp only [hstep] at h
      have := finishParse_error _ _ _ _ _ h
      subst this
      exact Or.inl ⟨rfl, rfl, rfl⟩

/-- C8 counterexample: for the input `"\n#EXTM3U"` the first non-empty line
is the declaration marker, yet parsing fails with the `MissingDeclaration`
error at line 1 — the parser inspects the first line, empty or not. -/
theorem claim8_counterexample :
    parseHlsManifest "\n#EXTM3U".toList = .error declarationErr ∧
    ((splitLines "\n#EXTM3U".toList).filter
        (fun l => !l.isEmpty)).headI = declarationField := by
  exact ⟨by decide, by decide⟩

/-- C8 (amended): parsing fails with the `MissingDeclaration` error at line 1
exactly when the first line of the input — empty or not, rather than the
first non-empty line — differs from `#EXTM3U`; with any other first line the
parse proceeds past the declaration check. -/
theorem claim8_declaration (data : Str) :
    parseHlsManifest data = .error declarationErr ↔
      (splitLines data).headI ≠ declarationField := by
  unfold parseHlsManifest
  by_cases hd : (splitLines data).headI ≠ declarationField
  · rw [if_pos hd]
    simp [hd]
  · rw [if_neg hd]
    simp only [hd, iff_false]
    intro hcon
    cases htail : (splitLines data).tail with
    | nil =>
      rw [htail] at hcon
      exact absurd hcon (by decide)
    | cons l ls =>
      rw [htail] at hcon
      rcases parseLoop_error_cases _ _ _ _ _ _ _ hcon with ⟨-, hf, -⟩ | ⟨h1, -, -⟩
      · exact absurd hf (by decide)
      · exact absurd h1 (by decide)

/-- A line carrying the `#EXTINF` prefix matches none of the four scalar
directive prefixes. -/
theorem segment_line_branches (line : Str)
    (h : segmentField.isPrefixOf line = true) :
    versionField.isPrefixOf line = false ∧
    targetDurationField.isPrefixOf line = false ∧
    mediaSequenceField.isPrefixOf line = false ∧
    discontinuitySequenceField.isPrefixOf line = false :=
  ⟨not_prefix_of_prefixed _ _ _ h (by decide) (by decide),
   not_prefix_of_prefixed _ _ _ h (by decide) (by decide),
   not_prefix_of_prefixed _ _ _ h (by decide) (by decide),
   not_prefix_of_prefixed _ _ _ h (by decide) (by decide)⟩

/-- A line carrying the `#EXT-X-ENDLIST` prefix matches none of the six
earlier directive prefixes. -/
theorem endlist_line_branches (line : Str)
    (h : endListField.isPrefixOf line = true) :
    versionField.isPrefixOf line = false ∧
    targetDurationField.isPrefixOf line = false ∧
    mediaSequenceField.isPrefixOf line = false ∧
    discontinuitySequenceField.isPrefixOf line = false ∧
    segmentField.isPrefixOf line = false ∧
    discontinuityField.isPrefixOf line = false :=
  ⟨not_prefix_of_prefixed _ _ _ h (by decide) (by decide),
   not_prefix_of_prefixed _ _ _ h (by decide) (by decide),
   not_prefix_of_prefixed _ _ _ h (by decide) (by decide),
   not_prefix_of_prefixed _ _ _ h (by decide) (by decide),
   not_prefix_of_prefixed _ _ _ h (by decide) (by decide),
   not_prefix_of_prefixed _ _ _ h (by decide) (by decide)⟩

/-- A segment-info line seen while a segment is pending yields the
`MissingSegmentPath` error at that line. -/
theorem parseLine_info_pending (line : Str) (i : Nat) (man : Manifest)
    (g : Option SegmentGroup) (ps : PendingSegment)
    (h : segmentField.isPrefixOf line = true) :
    parseLine line i man g (some ps) = .err (segmentPathErr i) := by
  obtain ⟨h1, h2, h3, h4⟩ := segment_line_branches line h
  unfold parseLine
  rw [if_neg (by simp [h1]), if_neg (by simp [h2]), if_neg (by simp [h3]),
    if_neg (by simp [h4]), if_pos h]

/-- An end-marker line stops processing with the end-list flag set and the
state unchanged. -/
theorem parseLine_endlist (line : Str) (i : Nat) (man : Manifest)
    (g : Option SegmentGroup) (s : Option PendingSegment)
    (h : endListField.isPrefixOf line = true) :
    parseLine line i man g s = .stop { man with hasEndList := true } g s := by
  obtain ⟨h1, h2, h3, h4, h5, h6⟩ := endlist_line_branches line h
  unfold parseLine
  rw [if_neg (by simp [h1]), if_neg (by simp [h2]), if_neg (by simp [h3]),
    if_neg (by simp [h4]), if_neg (by simp [h5]), if_neg (by simp [h6]),
    if_pos h]

/-- C7 counterexample: for `"#EXTM3U\n#EXTINF:1,x"` (two lines, so the line
past the end is 3), the pending-segment failure is reported at line 2, the
input's last line, not past its end. -/
theorem claim7_counterexample :
    parseHlsManifest "#EXTM3U\n#EXTINF:1,x".toList =
      .error { field := segmentField, line := 2,
               err := .segmentPathMissing } ∧
    (splitLines "#EXTM3U\n#EXTINF:1,x".toList).length + 1 = 3 ∧
    (2 : Nat) ≠ 3 := by
  exact ⟨by decide, by decide, by decide⟩

/-- C7 (amended): `MissingSegmentPath` arises exactly from the two pending
cases — a segment-info line while a segment is pending fails at that line,
and a segment still pending when processing stops (end of input or the
end-marker break) fails at one plus the count of lines after the declaration,
which is the number of the input's last line, not one past the end; every
such error carries the `#EXTINF` field and a line between 2 and the number of
split lines of the input. -/
theorem claim7_missing_path :
    (∀ (line : Str) (rest : List Str) (i endLine : Nat) (man : Manifest)
        (g : Option SegmentGroup) (ps : PendingSegment),
      segmentField.isPrefixOf line = true →
      parseLoop (line :: rest) i endLine man g (some ps) =
        .error (segmentPathErr i)) ∧
    (∀ (i endLine : Nat) (man : Manifest) (g : Option SegmentGroup)
        (ps : PendingSegment),
      parseLoop [] i endLine man g (some ps) =
        .error (segmentPathErr endLine)) ∧
    (∀ (line : Str) (rest : List Str) (i endLine : Nat) (man : Manifest)
        (g : Option SegmentGroup) (ps : PendingSegment),
      endListField.isPrefixOf line = true →
      parseLoop (line :: rest) i endLine man g (some ps) =
        .error (segmentPathErr endLine)) ∧
    (∀ (data : Str) (e : ParseError),
      parseHlsManifest data = .error e → e.err = .segmentPathMissing →
      e.field = segmentField ∧ 2 ≤ e.line ∧
        e.line ≤ (splitLines data).length) := by
  refine ⟨?_, ?_, ?_, ?_⟩
  · intro line rest i endLine man g ps h
    rw [parseLoop]
    simp [parseLine_info_pending line i man g ps h]
  · intro i endLine man g ps
    rfl
  · intro line rest i endLine man g ps h
    rw [parseLoop]
    simp [parseLine_endlist line i man g (some ps) h, finishParse]
  · intro data e h herr
    unfold parseHlsManifest at h
    split at h
    · simp only [Except.error.injEq] at h
      subst h
      exact absurd herr (by decide)
    · have hlen1 : (splitLines data).length =
          (splitLines data).tail.length + 1 := by
        cases hsp : splitLines data with
        | nil => exact absurd hsp (splitLines_ne_nil data)
        | cons a b => simp
      cases htail : (splitLines data).tail with
      | nil =>
        rw [htail] at h
        exact Except.noConfusion
          (show (Except.ok Manifest.empty : Except ParseError Manifest) =
            .error e from h)
      | cons a b =>
        rw [htail] at h
        rw [htail] at hlen1
        rcases parseLoop_error_cases _ _ _ _ _ _ _ h with
          ⟨hl, hf, -⟩ | ⟨h1, h2, h3⟩
        · refine ⟨hf, ?_, ?_⟩
          · rw [hl]; simp only [List.length_cons]; omega
          · rw [hl, hlen1]
        · refine ⟨h3 herr, h1, ?_⟩
          rw [hlen1]
          simp only [List.length_cons] at h2 ⊢
          omega

/-! ## The parse invariant -/

/-- The seven directive prefixes of the wire format, in match order. -/
def fieldPrefixes : List Str :=
  [versionField, targetDurationField, mediaSequenceField,
   discontinuitySequenceField, segmentField, discontinuityField, endListField]

/-- A path as accepted by the parser: it came from a single input line (no
newline) and matched none of the directive prefixes. -/
def PathOk (p : Str) : Prop :=
  '\n' ∉ p ∧ ∀ f ∈ fieldPrefixes, f.isPrefixOf p = false

/-- A segment as produced by the parser: a parser-shaped path, a title from a
single line, and a duration in canonical decimal form. -/
def SegOk (seg : Segment) : Prop :=
  PathOk seg.path ∧ '\n' ∉ seg.title ∧
  parseFloat32 seg.duration = some seg.duration

/-- All segments of a group are parser-produced. -/
def GroupSegsOk (g : SegmentGroup) : Prop := ∀ seg ∈ g.segments, SegOk seg

/-- A pending segment as held by the parser. -/
def PendOk (ps : PendingSegment) : Prop :=
  '\n' ∉ ps.title ∧ parseFloat32 ps.duration = some ps.duration

/-- What `ParseHlsManifest` guarantees about an accepted manifest: bounded
scalars, non-empty groups, and parser-produced segments throughout. -/
def ManOk (m : Manifest) : Prop :=
  m.version < 2 ^ 8 ∧ m.targetDuration < 2 ^ 8 ∧
  m.mediaSequence < 2 ^ 32 ∧ m.discontinuitySequence < 2 ^ 32 ∧
  (∀ g ∈ m.segmentGroups, g.segments ≠ []) ∧
  ∀ g ∈ m.segmentGroups, GroupSegsOk g

/-- The inductive invariant of the parse-loop state: accumulated groups are
well-formed, an empty accumulated group can only exist in the pending slot
while a segment is pending, and an empty group inside the manifest forces a
pending segment with no open group (which can never complete). -/
def StateOk (man : Manifest) (g : Option SegmentGroup)
    (s : Option PendingSegment) : Prop :=
  man.version < 2 ^ 8 ∧ man.targetDuration < 2 ^ 8 ∧
  man.mediaSequence < 2 ^ 32 ∧ man.discontinuitySequence < 2 ^ 32 ∧
  (∀ grp ∈ man.segmentGroups, GroupSegsOk grp) ∧
  ((∀ grp ∈ man.segmentGroups, grp.segments ≠ []) ∨ (s ≠ none ∧ g = none)) ∧
  (∀ grp, g = some grp → GroupSegsOk grp) ∧
  (∀ grp, g = some grp → grp.segments = [] → s ≠ none) ∧
  (∀ ps, s = some ps → PendOk ps)

/-- Every character of `getValue line` occurs in `line`. -/
theorem mem_getValue (line : Str) (c : Char) (h : c ∈ getValue line) :
    c ∈ line := by
  unfold getValue at h
  split at h
  · simp at h
  · rename_i a b heq
    rw [cut_eq_some ':' line a b heq]
    simp only [List.mem_append, List.mem_cons]
    right; right
    exact h

theorem parseLine_state_cont (line : Str) (i : Nat) (man : Manifest)
    (g : Option SegmentGroup) (s : Option PendingSegment)
    (man' : Manifest) (g' : Option SegmentGroup) (s' : Option PendingSegment)
    (hline : '\n' ∉ line) (hst : StateOk man g s)
    (h : parseLine line i man g s = .cont man' g' s') :
    StateOk man' g' s' := by
  obtain ⟨hv, htd, hms, hds, hgrps, hdisj, hgok, hgne, hpend⟩ := hst
  unfold parseLine at h
  repeat' split at h
  case isTrue.h_2 =>
    rename_i v heq
    cases h
    exact ⟨parseUintValue_ok_lt _ _ _ _ _ heq, htd, hms, hds, hgrps, hdisj,
      hgok, hgne, hpend⟩
  case isFalse.isTrue.h_2 =>
    rename_i v heq
    cases h
    exact ⟨hv, parseUintValue_ok_lt _ _ _ _ _ heq, hms, hds, hgrps, hdisj,
      hgok, hgne, hpend⟩
  case isFalse.isFalse.isTrue.h_2 =>
    rename_i v heq
    cases h
    exact ⟨hv, htd, parseUintValue_ok_lt _ _ _ _ _ heq, hds, hgrps, hdisj,
      hgok, hgne, hpend⟩
  case isFalse.isFalse.isFalse.isTrue.h_2 =>
    rename_i v heq
    cases h
    exact ⟨hv, htd, hms, parseUintValue_ok_lt _ _ _ _ _ heq, hgrps, hdisj,
      hgok, hgne, hpend⟩
  case isTrue.h_2.h_2.h_2.h_1 =>
    cases h
    refine ⟨hv, htd, hms, hds, hgrps, ?_, ?_, ?_, ?_⟩
    · rcases hdisj with hleft | ⟨hcontra, -⟩
      · exact Or.inl hleft
      · exact absurd rfl hcontra
    · intro grp hgrp
      injection hgrp with hgrp
      subst hgrp
      intro seg hseg
      exact absurd hseg (List.not_mem_nil seg)
    · intro grp hgrp hemp
      simp
    · intro ps hps
      injection hps with hps
      subst hps
      constructor
      · intro hmem
        exact hline (mem_getValue line '\n' (by
          rw [cut_eq_some ',' (getValue line) _ _ (by assumption)]
          simp only [List.mem_append, List.mem_cons]
          right; right
          exact hmem))
      · exact parseFloat32_canon _ _ (by assumption)
  case isTrue.h_2.h_2.h_2.h_2 =>
    cases h
    refine ⟨hv, htd, hms, hds, hgrps, ?_, ?_, ?_, ?_⟩
    · rcases hdisj with hleft | ⟨hcontra, -⟩
      · exact Or.inl hleft
      · exact absurd rfl hcontra
    · intro grp hgrp
      injection hgrp with hgrp
      subst hgrp
      exact hgok _ rfl
    · intro grp hgrp hemp
      simp
    · intro ps hps
      injection hps with hps
      subst hps
      constructor
      · intro hmem
        exact hline (mem_getValue line '\n' (by
          rw [cut_eq_some ',' (getValue line) _ _ (by assumption)]
          simp only [List.mem_append, List.mem_cons]
          right; right
          exact hmem))
      · exact parseFloat32_canon _ _ (by assumption)
  case isFalse.isFalse.isFalse.isFalse.isFalse.isTrue.h_1 =>
    cases h
    refine ⟨hv, htd, hms, hds, ?_, ?_, ?_, ?_, hpend⟩
    · intro grp hgrp
      rcases List.mem_append.mp hgrp with hg1 | hg2
      · exact hgrps grp hg1
      · rw [List.mem_singleton] at hg2
        subst hg2
        exact hgok _ rfl
    · rcases hdisj with hleft | ⟨-, hgn⟩
      · rename_i grp0
        by_cases hemp : grp0.segments = []
        · exact Or.inr ⟨hgne _ rfl hemp, rfl⟩
        · refine Or.inl ?_
          intro grp hgrp
          rcases List.mem_append.mp hgrp with hg1 | hg2
          · exact hleft grp hg1
          · rw [List.mem_singleton] at hg2
            subst hg2
            exact hemp
      · exact absurd hgn (by simp)
    · intro grp hgrp
      exact Option.noConfusion hgrp
    · intro grp hgrp hemp
      exact absurd hgrp (by simp)
  case isFalse.isFalse.isFalse.isFalse.isFalse.isTrue.h_2 =>
    cases h
    refine ⟨hv, htd, hms, hds, hgrps, ?_, ?_, ?_, hpend⟩
    · rcases hdisj with hleft | ⟨hs, -⟩
      · exact Or.inl hleft
      · exact Or.inr ⟨hs, rfl⟩
    · intro grp hgrp
      exact Option.noConfusion hgrp
    · intro grp hgrp hemp
      exact absurd hgrp (by simp)
  case isFalse.isFalse.isFalse.isFalse.isFalse.isFalse.isFalse.h_1 =>
    cases h
    refine ⟨hv, htd, hms, hds, hgrps, ?_, ?_, ?_, ?_⟩
    · rcases hdisj with hleft | ⟨-, hgn⟩
      · exact Or.inl hleft
      · exact absurd hgn (by simp)
    · intro grp hgrp
      injection hgrp with hgrp
      subst hgrp
      intro seg hseg
      rcases List.mem_append.mp hseg with hs1 | hs2
      · exact hgok _ rfl seg hs1
      · rw [List.mem_singleton] at hs2
        subst hs2
        obtain ⟨htl, hdur⟩ := hpend _ rfl
        refine ⟨⟨hline, ?_⟩, htl, hdur⟩
        intro f hf
        simp only [fieldPrefixes, List.mem_cons, List.not_mem_nil,
          or_false] at hf
        rcases hf with rfl | rfl | rfl | rfl | rfl | rfl | rfl <;>
          exact Bool.eq_false_iff.mpr (by assumption)
    · intro grp hgrp hemp
      injection hgrp with hgrp
      subst hgrp
      simp at hemp
    · intro ps hps
      exact Option.noConfusion hps
  all_goals exact StepResult.noConfusion h

/-- The end-marker stop keeps the loop state (only the end-list flag is
set), so the invariant carries over. -/
theorem parseLine_stop_state (line : Str) (i : Nat) (man : Manifest)
    (g : Option SegmentGroup) (s : Option PendingSegment)
    (man' : Manifest) (g' : Option SegmentGroup) (s' : Option PendingSegment)
    (hst : StateOk man g s)
    (h : parseLine line i man g s = .stop man' g' s') :
    StateOk man' g' s' := by
  obtain ⟨hv, htd, hms, hds, hgrps, hdisj, hgok, hgne, hpend⟩ := hst
  unfold parseLine at h
  repeat' split at h
  case isFalse.isFalse.isFalse.isFalse.isFalse.isFalse.isTrue =>
    cases h
    exact ⟨hv, htd, hms, hds, hgrps, hdisj, hgok, hgne, hpend⟩
  all_goals exact StepResult.noConfusion h

/-- A successful `finishParse` from an invariant-respecting state yields a
guarantee-respecting manifest. -/
theorem finishParse_ok (man : Manifest) (g : Option SegmentGroup)
    (s : Option PendingSegment) (endLine : Nat) (m : Manifest)
    (hst : StateOk man g s) (h : finishParse man g s endLine = .ok m) :
    ManOk m := by
  obtain ⟨hv, htd, hms, hds, hgrps, hdisj, hgok, hgne, hpend⟩ := hst
  unfold finishParse at h
  cases s with
  | some ps => exact Except.noConfusion h
  | none =>
    have hne : ∀ grp ∈ man.segmentGroups, grp.segments ≠ [] := by
      rcases hdisj with hleft | ⟨hcontra, -⟩
      · exact hleft
      · exact absurd rfl hcontra
    cases g with
    | none =>
      injection h with h
      subst h
      exact ⟨hv, htd, hms, hds, hne, hgrps⟩
    | some grp =>
      injection h with h
      subst h
      refine ⟨hv, htd, hms, hds, ?_, ?_⟩
      · intro g2 hg2
        rcases List.mem_append.mp hg2 with h1 | h2
        · exact hne g2 h1
        · rw [List.mem_singleton] at h2
          subst h2
          intro hemp
          exact hgne _ rfl hemp rfl
      · intro g2 hg2
        rcases List.mem_append.mp hg2 with h1 | h2
        · exact hgrps g2 h1
        · rw [List.mem_singleton] at h2
          subst h2
          exact hgok _ rfl

/-- A successful run of the parse loop from an invariant-respecting state
over newline-free lines yields a guarantee-respecting manifest. -/
theorem parseLoop_ok (lines : List Str) :
    ∀ (i endLine : Nat) (man : Manifest) (g : Option SegmentGroup)
      (s : Option PendingSegment) (m : Manifest),
      (∀ l ∈ lines, '\n' ∉ l) → StateOk man g s →
      parseLoop lines i endLine man g s = .ok m → ManOk m := by
  induction lines with
  | nil =>
    intro i endLine man g s m _ hst h
    exact finishParse_ok man g s endLine m hst h
  | cons line rest ih =>
    intro i endLine man g s m hlines hst h
    rw [parseLoop] at h
    cases hstep : parseLine line i man g s with
    | err e =>
      simp only [hstep] at h
      exact Except.noConfusion h
    | cont man' g' s' =>
      simp only [hstep] at h
      exact ih _ _ _ _ _ _ (fun l hl => hlines l (List.mem_cons_of_mem _ hl))
        (parseLine_state_cont line i man g s man' g' s'
          (hlines line (List.mem_cons_self _ _)) hst hstep) h
    | stop man' g' s' =>
      simp only [hstep] at h
      exact finishParse_ok man' g' s' endLine m
        (parseLine_stop_state line i man g s man' g' s' hst hstep) h

/-- Every manifest accepted by `ParseHlsManifest` respects the parse
guarantees. -/
theorem parseHlsManifest_ok (data : Str) (m : Manifest)
    (h : parseHlsManifest data = .ok m) : ManOk m := by
  unfold parseHlsManifest at h
  split at h
  · exact Except.noConfusion h
  · refine parseLoop_ok _ 2 _ Manifest.empty none none m ?_ ?_ h
    · intro l hl
      exact splitLines_no_newline data l (List.mem_of_mem_tail hl)
    · refine ⟨by decide, by decide, by decide, by decide, ?_, ?_, ?_, ?_, ?_⟩
      · intro grp hgrp
        exact absurd hgrp (List.not_mem_nil grp)
      · exact Or.inl (fun grp hgrp => absurd hgrp (List.not_mem_nil grp))
      · intro grp hgrp
        exact Option.noConfusion hgrp
      · intro grp hgrp
        exact Option.noConfusion hgrp
      · intro ps hps
        exact Option.noConfusion hps

/-- An input accepted by the parser in which one segment has an *empty* path:
the empty line after the info line is taken as the path. -/
def c9data : Str := "#EXTM3U\n#EXTINF:1,\n".toList

/-- C9 counterexample: the parser accepts `"#EXTM3U\n#EXTINF:1,\n"` and the
returned manifest's single segment has the empty string as its path. -/
theorem claim9_counterexample :
    parseHlsManifest c9data =
      .ok { version := 0, targetDuration := 0, mediaSequence := 0,
            discontinuitySequence := 0, hasEndList := false,
            segmentGroups := [⟨[{ path := [], duration := ['1'],
                                  title := [] }]⟩] } := by
  decide

/-- C9 (amended): every segment of an accepted manifest has a path taken from
a single input line — it contains no line break and matches no directive
prefix — but it may be empty. -/
theorem claim9_paths (data : Str) (m : Manifest)
    (h : parseHlsManifest data = .ok m) :
    ∀ g ∈ m.segmentGroups, ∀ seg ∈ g.segments,
      '\n' ∉ seg.path ∧ ∀ f ∈ fieldPrefixes, f.isPrefixOf seg.path = false := by
  intro g hg seg hseg
  obtain ⟨-, -, -, -, -, hgok⟩ := parseHlsManifest_ok data m h
  obtain ⟨⟨h1, h2⟩, -, -⟩ := hgok g hg seg hseg
  exact ⟨h1, h2⟩

/-- The manifest parsed from the C9 witness input. -/
def c9witManifest : Manifest :=
  { version := 0, targetDuration := 0, mediaSequence := 0,
    discontinuitySequence := 0, hasEndList := false,
    segmentGroups := [⟨[{ path := "seg.ts".toList, duration := ['1'],
                          title := [] }]⟩] }

/-- Witness for C9 (amended) at a concrete accepted input, instantiated at
the manifest's single segment and at the segment-info prefix. -/
theorem claim9_witness :
    '\n' ∉ (Segment.mk "seg.ts".toList ['1'] []).path ∧
      segmentField.isPrefixOf (Segment.mk "seg.ts".toList ['1'] []).path =
        false :=
  have h := claim9_paths "#EXTM3U\n#EXTINF:1,\nseg.ts".toList c9witManifest
    (by decide) ⟨[⟨"seg.ts".toList, ['1'], []⟩]⟩ (by decide)
    ⟨"seg.ts".toList, ['1'], []⟩ (by decide)
  ⟨h.1, h.2 segmentField (by decide)⟩

/-- Witness for C7 (amended) at concrete inputs: a second info line while a
segment is pending, and the pending-at-end error location for the two-line
input. -/
theorem claim7_witness :
    parseLoop ["#EXTINF:2,x".toList] 5 9 Manifest.empty none
        (some ⟨['1'], []⟩) = .error (segmentPathErr 5) ∧
    ((⟨segmentField, 2, .segmentPathMissing⟩ : ParseError).field =
        segmentField ∧
      2 ≤ (⟨segmentField, 2, .segmentPathMissing⟩ : ParseError).line ∧
      (⟨segmentField, 2, .segmentPathMissing⟩ : ParseError).line ≤
        (splitLines "#EXTM3U\n#EXTINF:2,y".toList).length) :=
  ⟨claim7_missing_path.1 "#EXTINF:2,x".toList [] 5 9 Manifest.empty none
      ⟨['1'], []⟩ (by decide),
   claim7_missing_path.2.2.2 "#EXTM3U\n#EXTINF:2,y".toList
      ⟨segmentField, 2, .segmentPathMissing⟩ (by decide) rfl⟩

/-! ## Re-parsing a rendered manifest -/

/-- A list is a prefix of itself. -/
theorem isPrefixOf_self (A : Str) : A.isPrefixOf A = true := by
  rw [List.isPrefixOf_iff_prefix]

/-- Membership in the rendered group lines: the discontinuity marker or a
line of one of the groups. -/
theorem mem_groupsRenderLines :
    ∀ (gs : List SegmentGroup) (l : Str), l ∈ groupsRenderLines gs →
      l = discontinuityField ∨ ∃ g ∈ gs, l ∈ g.renderLines := by
  intro gs
  induction gs with
  | nil => intro l hl; simp [groupsRenderLines] at hl
  | cons g rest ih =>
    intro l hl
    cases rest with
    | nil =>
      right
      exact ⟨g, List.mem_cons_self g [], hl⟩
    | cons g2 rest2 =>
      simp only [groupsRenderLines, List.append_assoc, List.mem_append,
        List.mem_cons] at hl
      rcases hl with hl | hl | hl
      · right
        exact ⟨g, List.mem_cons_self g _, hl⟩
      · left; exact hl
      · rcases ih l hl with h | ⟨g3, hg3, hmem⟩
        · left; exact h
        · right
          exact ⟨g3, List.mem_cons_of_mem g hg3, hmem⟩

/-- Membership in one group's rendered lines: an info line or a path line of
one of its segments. -/
theorem mem_group_renderLines (g : SegmentGroup) (l : Str)
    (hl : l ∈ g.renderLines) :
    ∃ seg ∈ g.segments,
      l = segmentField ++ ':' :: (seg.duration ++ ',' :: seg.title) ∨
      l = seg.path := by
  unfold SegmentGroup.renderLines at hl
  rw [List.mem_flatten] at hl
  obtain ⟨ls, hls, hmem⟩ := hl
  rw [List.mem_map] at hls
  obtain ⟨seg, hseg, rfl⟩ := hls
  unfold Segment.renderLines at hmem
  simp only [List.mem_cons, List.not_mem_nil, or_false] at hmem
  rcases hmem with h | h
  · exact ⟨seg, hseg, Or.inl h⟩
  · exact ⟨seg, hseg, Or.inr h⟩

/-- No line of a rendered well-formed manifest contains a newline. -/
theorem renderLines_no_newline (m : Manifest) (hok : ManOk m) :
    ∀ l ∈ m.renderLines, '\n' ∉ l := by
  obtain ⟨-, -, -, -, -, hgok⟩ := hok
  intro l hl
  unfold Manifest.renderLines at hl
  simp only [List.mem_cons, List.mem_append] at hl
  have hdig : ∀ (n : Nat) (f : Str), '\n' ∉ f →
      '\n' ∉ f ++ ':' :: natToStr n := by
    intro n f hf hmem
    rcases List.mem_append.mp hmem with h | h
    · exact hf h
    · rcases List.mem_cons.mp h with h | h
      · exact absurd h (by decide)
      · exact no_newline_of_all_digits _ (natToStr_spec n).2.1 h
  rcases hl with rfl | rfl | rfl | rfl | rfl | hl
  · decide
  · exact hdig _ _ (by decide)
  · exact hdig _ _ (by decide)
  · exact hdig _ _ (by decide)
  · exact hdig _ _ (by decide)
  rcases hl with hl | hl
  · rcases mem_groupsRenderLines _ l hl with rfl | ⟨g, hg, hmem⟩
    · decide
    · obtain ⟨seg, hseg, hcase⟩ := mem_group_renderLines g l hmem
      obtain ⟨⟨hpath, -⟩, htitle, hdur⟩ := hgok g hg seg hseg
      rcases hcase with rfl | rfl
      · intro hmem2
        rcases List.mem_append.mp hmem2 with h | h
        · exact absurd h (by decide)
        · rcases List.mem_cons.mp h with h | h
          · exact absurd h (by decide)
          · rcases List.mem_append.mp h with h | h
            · exact (parseFloat32_no_sep _ _ hdur).2.1 h
            · rcases List.mem_cons.mp h with h | h
              · exact absurd h (by decide)
              · exact htitle h
      · exact hpath
  · split at hl
    · rw [List.mem_singleton] at hl
      subst hl
      decide
    · simp at hl

/-- Handling a rendered version line. -/
theorem parseLine_version (v : Nat) (hv : v < 2 ^ 8) (i : Nat)
    (man : Manifest) (g : Option SegmentGroup) (s : Option PendingSegment) :
    parseLine (versionField ++ ':' :: natToStr v) i man g s =
      .cont { man with version := v } g s := by
  unfold parseLine
  rw [if_pos (isPrefixOf_append_self versionField _)]
  simp only [parseUintValue_render versionField i 8 v (by decide) hv]

/-- Handling a rendered target-duration line. -/
theorem parseLine_targetDuration (v : Nat) (hv : v < 2 ^ 8) (i : Nat)
    (man : Manifest) (g : Option SegmentGroup) (s : Option PendingSegment) :
    parseLine (targetDurationField ++ ':' :: natToStr v) i man g s =
      .cont { man with targetDuration := v } g s := by
  unfold parseLine
  rw [if_neg (by simp
      [not_prefix_append versionField targetDurationField _
        (by decide) (by decide)]),
    if_pos (isPrefixOf_append_self targetDurationField _)]
  simp only [parseUintValue_render targetDurationField i 8 v (by decide) hv]

/-- Handling a rendered media-sequence line. -/
theorem parseLine_mediaSequence (v : Nat) (hv : v < 2 ^ 32) (i : Nat)
    (man : Manifest) (g : Option SegmentGroup) (s : Option PendingSegment) :
    parseLine (mediaSequenceField ++ ':' :: natToStr v) i man g s =
      .cont { man with mediaSequence := v } g s := by
  unfold parseLine
  rw [if_neg (by simp
      [not_prefix_append versionField mediaSequenceField _
        (by decide) (by decide)]),
    if_neg (by simp
      [not_prefix_append targetDurationField mediaSequenceField _
        (by decide) (by decide)]),
    if_pos (isPrefixOf_append_self mediaSequenceField _)]
  simp only [parseUintValue_render mediaSequenceField i 32 v (by decide) hv]

/-- Handling a rendered discontinuity-sequence line. -/
theorem parseLine_discSequence (v : Nat) (hv : v < 2 ^ 32) (i : Nat)
    (man : Manifest) (g : Option SegmentGroup) (s : Option PendingSegment) :
    parseLine (discontinuitySequenceField ++ ':' :: natToStr v) i man g s =
      .cont { man with discontinuitySequence := v } g s := by
  unfold parseLine
  rw [if_neg (by simp
      [not_prefix_append versionField discontinuitySequenceField _
        (by decide) (by decide)]),
    if_neg (by simp
      [not_prefix_append targetDurationField discontinuitySequenceField _
        (by decide) (by decide)]),
    if_neg (by simp
      [not_prefix_append mediaSequenceField discontinuitySequenceField _
        (by decide) (by decide)]),
    if_pos (isPrefixOf_append_self discontinuitySequenceField _)]
  simp only
    [parseUintValue_render discontinuitySequenceField i 32 v (by decide) hv]

/-- Handling a rendered segment-info line with no pending segment. -/
theorem parseLine_info (dur title : Str)
    (hd : parseFloat32 dur = some dur) (i : Nat) (man : Manifest)
    (g : Option SegmentGroup) :
    parseLine (segmentField ++ ':' :: (dur ++ ',' :: title)) i man g none =
      .cont man
        (match g with
         | none => some ⟨[]⟩
         | some grp => some grp)
        (some ⟨dur, title⟩) := by
  unfold parseLine
  rw [if_neg (by simp
      [not_prefix_append versionField segmentField _ (by decide) (by decide)]),
    if_neg (by simp
      [not_prefix_append targetDurationField segmentField _
        (by decide) (by decide)]),
    if_neg (by simp
      [not_prefix_append mediaSequenceField segmentField _
        (by decide) (by decide)]),
    if_neg (by simp
      [not_prefix_append discontinuitySequenceField segmentField _
        (by decide) (by decide)]),
    if_pos (isPrefixOf_append_self segmentField _)]
  rw [getValue_append segmentField _ (by decide)]
  simp only [cut_append ',' dur title (parseFloat32_no_sep _ _ hd).1, hd]

/-- Handling a rendered path line while a segment is pending and a group is
open. -/
theorem parseLine_path (p : Str)
    (hp : ∀ f ∈ fieldPrefixes, f.isPrefixOf p = false) (i : Nat)
    (man : Manifest) (grp : SegmentGroup) (ps : PendingSegment) :
    parseLine p i man (some grp) (some ps) =
      .cont man (some ⟨grp.segments ++ [⟨p, ps.duration, ps.title⟩]⟩)
        none := by
  have h1 := hp versionField (by simp [fieldPrefixes])
  have h2 := hp targetDurationField (by simp [fieldPrefixes])
  have h3 := hp mediaSequenceField (by simp [fieldPrefixes])
  have h4 := hp discontinuitySequenceField (by simp [fieldPrefixes])
  have h5 := hp segmentField (by simp [fieldPrefixes])
  have h6 := hp discontinuityField (by simp [fieldPrefixes])
  have h7 := hp endListField (by simp [fieldPrefixes])
  unfold parseLine
  rw [if_neg (by simp [h1]), if_neg (by simp [h2]), if_neg (by simp [h3]),
    if_neg (by simp [h4]), if_neg (by simp [h5]), if_neg (by simp [h6]),
    if_neg (by simp [h7])]

/-- Handling a rendered discontinuity-marker line with an open group. -/
theorem parseLine_disc (i : Nat) (man : Manifest) (grp : SegmentGroup)
    (s : Option PendingSegment) :
    parseLine discontinuityField i man (some grp) s =
      .cont { man with segmentGroups := man.segmentGroups ++ [grp] }
        none s := by
  unfold parseLine
  rw [if_neg (by decide), if_neg (by decide), if_neg (by decide),
    if_neg (by decide), if_neg (by decide),
    if_pos (isPrefixOf_self discontinuityField)]


theorem parseLoop_append_segments (segs : List Segment) :
    ∀ (rest : List Str) (i endLine : Nat) (man : Manifest)
      (grp : SegmentGroup), (∀ seg ∈ segs, SegOk seg) →
      parseLoop ((segs.map Segment.renderLines).flatten ++ rest) i endLine
          man (some grp) none =
        parseLoop rest (i + 2 * segs.length) endLine man
          (some ⟨grp.segments ++ segs⟩) none := by
  induction segs with
  | nil =>
    intro rest i endLine man grp _
    obtain ⟨gsegs⟩ := grp
    simp [List.map_nil, List.flatten_nil, List.nil_append]
  | cons seg segs ih =>
    intro rest i endLine man grp hok
    obtain ⟨p, d, t⟩ := seg
    obtain ⟨⟨hpath, hpfx⟩, htitle, hdur⟩ := hok _ (List.mem_cons_self _ _)
    simp only [List.map_cons, List.flatten_cons, Segment.renderLines,
      List.cons_append, List.nil_append]
    rw [parseLoop, parseLine_info d t hdur i man (some grp)]
    simp only
    rw [parseLoop, parseLine_path p hpfx (i + 1) man grp ⟨d, t⟩]
    simp only
    rw [ih _ _ _ _ _ (fun x hx => hok x (List.mem_cons_of_mem _ hx))]
    have hidx : i + 1 + 1 + 2 * segs.length = i + 2 * (segs.length + 1) := by
      ring
    rw [hidx]
    simp [List.append_assoc]

theorem parseLoop_one_group (g : SegmentGroup) (rest : List Str)
    (i endLine : Nat) (man : Manifest)
    (hne : g.segments ≠ []) (hok : GroupSegsOk g) :
    parseLoop (g.renderLines ++ rest) i endLine man none none =
      parseLoop rest (i + 2 * g.segments.length) endLine man (some g)
        none := by
  obtain ⟨gsegs⟩ := g
  cases gsegs with
  | nil => exact absurd rfl hne
  | cons s0 srest =>
    obtain ⟨p, d, t⟩ := s0
    obtain ⟨⟨hpath, hpfx⟩, htitle, hdur⟩ := hok _ (List.mem_cons_self _ _)
    unfold SegmentGroup.renderLines
    simp only [List.map_cons, List.flatten_cons, Segment.renderLines,
      List.cons_append, List.nil_append]
    rw [parseLoop, parseLine_info d t hdur i man none]
    simp only
    rw [parseLoop, parseLine_path p hpfx (i + 1) man ⟨[]⟩ ⟨d, t⟩]
    simp only
    rw [parseLoop_append_segments srest _ _ _ _ _
      (fun x hx => hok x (List.mem_cons_of_mem _ hx))]
    have hidx : i + 1 + 1 + 2 * srest.length = i + 2 * (srest.length + 1) := by
      ring
    rw [hidx]
    simp

theorem parseLoop_groups (gs : List SegmentGroup) :
    ∀ (junk : List Str) (i endLine : Nat) (man : Manifest),
      (∀ g ∈ gs, g.segments ≠ []) → (∀ g ∈ gs, GroupSegsOk g) →
      parseLoop (groupsRenderLines gs ++ endListField :: junk) i endLine man
          none none =
        .ok { man with hasEndList := true,
                       segmentGroups := man.segmentGroups ++ gs } := by
  induction gs with
  | nil =>
    intro junk i endLine man _ _
    simp only [groupsRenderLines, List.nil_append]
    rw [parseLoop, parseLine_endlist _ i man none none (isPrefixOf_self _)]
    simp [finishParse]
  | cons g rest ih =>
    intro junk i endLine man hne hok
    cases rest with
    | nil =>
      simp only [groupsRenderLines]
      rw [parseLoop_one_group g _ i endLine man
        (hne g (List.mem_cons_self _ _)) (hok g (List.mem_cons_self _ _))]
      rw [parseLoop, parseLine_endlist _ _ man (some g) none
        (isPrefixOf_self _)]
      simp [finishParse]
    | cons g2 rest2 =>
      simp only [groupsRenderLines, List.append_assoc, List.cons_append]
      rw [parseLoop_one_group g _ i endLine man
        (hne g (List.mem_cons_self _ _)) (hok g (List.mem_cons_self _ _))]
      rw [parseLoop, parseLine_disc _ man g none]
      simp only
      rw [ih junk _ endLine _
        (fun x hx => hne x (List.mem_cons_of_mem _ hx))
        (fun x hx => hok x (List.mem_cons_of_mem _ hx))]
      simp [List.append_assoc]

theorem render_reparse (m : Manifest) (hok : ManOk m)
    (hend : m.hasEndList = true) :
    parseHlsManifest m.render = .ok m := by
  have hlines : splitLines m.render = m.renderLines ++ [[]] :=
    splitLines_joinLines _ (renderLines_no_newline m hok)
  obtain ⟨hv, htd, hms, hds, hne, hgok⟩ := hok
  unfold parseHlsManifest
  rw [hlines]
  obtain ⟨v, td, ms, ds, he, gs⟩ := m
  subst hend
  unfold Manifest.renderLines
  simp only [List.cons_append, List.headI, List.tail_cons, if_true]
  rw [if_neg (by simp)]
  rw [parseLoop, parseLine_version v hv 2 Manifest.empty none none]
  simp only
  rw [parseLoop, parseLine_targetDuration td htd 3 _ none none]
  simp only
  rw [parseLoop, parseLine_mediaSequence ms hms 4 _ none none]
  simp only
  rw [parseLoop, parseLine_discSequence ds hds 5 _ none none]
  simp only
  rw [List.append_assoc, List.singleton_append]
  rw [parseLoop_groups gs [[]] 6 _ _ hne hgok]
  rfl

/-- C3 (amended): if `ParseHlsManifest` accepts `t` and the parsed manifest has
its end-list flag set, re-parsing the rendering succeeds and returns the
identical manifest, so rendering is stable: `String(Parse(t)) ==
String(Parse(String(Parse(t))))`. -/
theorem claim3_roundtrip (t : Str) (m : Manifest)
    (h : parseHlsManifest t = .ok m) (hend : m.hasEndList = true) :
    parseHlsManifest m.render = .ok m ∧
      Except.map Manifest.render (parseHlsManifest m.render) =
        .ok m.render := by
  have hr := render_reparse m (parseHlsManifest_ok t m h) hend
  exact ⟨hr, by rw [hr]; rfl⟩

/-- C3 counterexample: `"#EXTM3U"` is accepted (yielding the empty manifest,
whose end-list flag is unset), yet re-parsing its rendering fails with an
invalid-line error at the trailing empty line — so render-after-parse is not
idempotent for every accepted text. -/
theorem claim3_counterexample :
    parseHlsManifest ("#EXTM3U".toList) = .ok Manifest.empty ∧
      parseHlsManifest Manifest.empty.render =
        .error { field := [], line := 6, err := .invalidField } := by
  constructor <;> decide

/-- C3 witness: a concrete accepted manifest with the end-list marker
round-trips. -/
theorem claim3_witness :
    (parseHlsManifest ("#EXTM3U\n#EXT-X-VERSION:3\n#EXTINF:4.5,t\nseg.ts\n#EXT-X-ENDLIST".toList) =
        .ok ⟨3, 0, 0, 0, true, [⟨[⟨"seg.ts".toList, "4.5".toList, ['t']⟩]⟩]⟩) ∧
      (⟨3, 0, 0, 0, true, [⟨[⟨"seg.ts".toList, "4.5".toList, ['t']⟩]⟩]⟩ : Manifest).hasEndList = true ∧
      parseHlsManifest (Manifest.render ⟨3, 0, 0, 0, true, [⟨[⟨"seg.ts".toList, "4.5".toList, ['t']⟩]⟩]⟩) =
        .ok ⟨3, 0, 0, 0, true, [⟨[⟨"seg.ts".toList, "4.5".toList, ['t']⟩]⟩]⟩ ∧
      Except.map Manifest.render (parseHlsManifest (Manifest.render ⟨3, 0, 0, 0, true, [⟨[⟨"seg.ts".toList, "4.5".toList, ['t']⟩]⟩]⟩)) =
        .ok (Manifest.render ⟨3, 0, 0, 0, true, [⟨[⟨"seg.ts".toList, "4.5".toList, ['t']⟩]⟩]⟩) :=
  ⟨by decide, by decide,
    claim3_roundtrip ("#EXTM3U\n#EXT-X-VERSION:3\n#EXTINF:4.5,t\nseg.ts\n#EXT-X-ENDLIST".toList) _ (by decide) (by decide)⟩

end Hls
